import Mathlib

/-!
Verification of the run-discovery / grouping engine and the staged tedana
pipeline orchestrator of `run_tedana.py`.

The Python program is shallowly embedded as follows:

* A filesystem path is an `EPath` (directory components plus file name).
* The mutable output tree is an explicit state `FS := List EPath` (the set of
  files that currently exist), threaded through the stateful stages.
* The read-only input tree (fMRIPrep derivatives), the JSON sidecar contents
  and the external tools (`t2smap_workflow`, `antsApplyTransforms` / nipype
  `ApplyTransforms`, `glob`) are an environment `Env` of oracles.
* Echo times (floats read from JSON sidecars) are modelled as rationals.
* Every invocation of an external capability is recorded in a call trace so
  that claims about "is invoked exactly twice / is not invoked" are statable.
* Python exceptions become `Except TedErr`; each `raise` site of the source
  gets its own constructor.
-/

/-- A filesystem path: directory components plus a file name.
`⟨["a","b"], "f.txt"⟩` stands for `a/b/f.txt`. -/
structure EPath where
  dir : List String
  name : String
deriving DecidableEq, Repr

/-- Python `str.startswith(p)` (structural, so it evaluates in the kernel). -/
def pyStartsWith (s p : String) : Bool :=
  p.data.isPrefixOf s.data

/-- Worker for `pysplit`.  Scans left to right; whenever the (nonempty)
separator is a prefix of the remainder, emits the accumulated token and skips
the separator.  `fuel` only forces structural recursion; every step consumes
at least one character, so `fuel = length of the input` never runs out. -/
def pysplitAux (sep : List Char) : Nat → List Char → List Char → List (List Char)
  | 0, _, acc => [acc.reverse]
  | fuel + 1, cs, acc =>
    match cs with
    | [] => [acc.reverse]
    | c :: cs' =>
      if sep.isPrefixOf (c :: cs') then
        acc.reverse :: pysplitAux sep fuel (cs'.drop (sep.length - 1)) []
      else
        pysplitAux sep fuel cs' (c :: acc)

/-- Python `str.split(sep)` for a nonempty separator. -/
def pysplit (s sep : String) : List String :=
  if sep = "" then [s]
  else (pysplitAux sep.data s.data.length s.data []).map String.mk

/-- Index of the last occurrence of the character in the list, if any. -/
def lastIdxOf (c : Char) : List Char → Option Nat
  | [] => none
  | a :: as =>
    match lastIdxOf c as with
    | some i => some (i + 1)
    | none => if a = c then some 0 else none

/-- `pathlib.PurePath.with_suffix("")` on a file name: remove the last
suffix.  CPython defines the suffix as `name[i:]` for `i = name.rfind(".")`
when `0 < i < len(name) - 1`, and `""` otherwise. -/
def dropSuffix (s : String) : String :=
  match lastIdxOf '.' s.data with
  | none => s
  | some i => if 0 < i ∧ i + 1 < s.data.length then String.mk (s.data.take i) else s

/-- `pathlib.PurePath.with_suffix(".json")` on a file name: strip the current
suffix (if any) and append `".json"`. -/
def withSuffixJson (s : String) : String :=
  dropSuffix s ++ ".json"

/-- The JSON sidecar path of an echo file:
`echo_file.with_suffix("").with_suffix(".json")` (same directory). -/
def json_path_of (f : EPath) : EPath :=
  ⟨f.dir, withSuffixJson (dropSuffix f.name)⟩

/-- Python `f"{n:02d}"` for a natural number. -/
def fmt02 (n : Nat) : String :=
  if n < 10 then "0" ++ Nat.repr n else Nat.repr n

/-- The temporary trimmed artifact written for the `n`-th echo (1-based):
`output_dir / f"temp_echo-{n:02d}_trimmed.nii.gz"`. -/
def tempEPath (outDir : List String) (n : Nat) : EPath :=
  ⟨outDir, "temp_echo-" ++ fmt02 n ++ "_trimmed.nii.gz"⟩

/-- `EchoFileInfo` of the source: echo file path, `EchoTime` value and JSON
sidecar path. -/
structure EchoFileInfo where
  file_path : EPath
  echo_time : ℚ
  json_path : EPath
deriving DecidableEq, Repr

/-- `TransformFiles` of the source: the four auxiliary artifacts of a run. -/
structure TransformFiles where
  bold_to_t1w : EPath
  t1w_reference : EPath
  mni_reference : EPath
  t1w_to_mni : EPath
deriving DecidableEq, Repr

/-- `RunGroup` of the source: run key, echo sequence, transform set. -/
structure RunGroup where
  key : String
  echo_files : List EchoFileInfo
  transforms : TransformFiles
deriving DecidableEq, Repr

/-- One error constructor per `raise` site of the source. -/
inductive TedErr where
  /-- `process`: `ValueError` when the fMRIPrep directory does not exist. -/
  | FmriprepNotFound (dir : List String)
  /-- `_find_echo_files`: `ValueError` when the subject directory is absent. -/
  | SubjectNotFound (dir : List String)
  /-- `_get_echo_file_info`: `FileNotFoundError`, names the sidecar path. -/
  | MissingSidecar (p : EPath)
  /-- `_get_echo_file_info`: `ValueError` when `EchoTime` is absent or null. -/
  | MissingTimingValue (p : EPath)
  /-- `_find_transform_files`: `FileNotFoundError`, names the expected path. -/
  | MissingTransformArtifact (p : EPath)
  /-- `_find_transform_files`: `FileNotFoundError` when the anat glob has no
  match; carries the glob pattern. -/
  | MissingAnatTransform (pattern : String)
  /-- `process`: `ValueError` naming the run key and the actual echo count. -/
  | EchoCountMismatch (key : String) (count : Nat)
  /-- `_run_tedana`: `FileNotFoundError` when the declared output is absent. -/
  | CombinationOutputMissing (p : EPath)
  /-- `_apply_transforms`: `RuntimeError` when the output directory could not
  be created. -/
  | DirectoryCreationFailed (dir : List String)
  /-- `_apply_transforms`: failure reported by the external resampler. -/
  | ProjectionFailed (diag : String)
  /-- `_load_echo_image`: failure while loading/trimming one echo image. -/
  | LoadError (p : EPath)
  /-- An exception raised by the external combination capability, identified
  by an opaque token. -/
  | ExternalError (code : Nat)
deriving DecidableEq, Repr

instance {ε α : Type} [DecidableEq ε] [DecidableEq α] : DecidableEq (Except ε α) := by
  intro x y
  cases x <;> cases y
  case error.error a b => exact decidable_of_iff (a = b) (by simp)
  case ok.ok a b => exact decidable_of_iff (a = b) (by simp)
  all_goals exact .isFalse (by simp)

/-- The output-tree filesystem state: the files that currently exist. -/
abbrev FS := List EPath

/-- Create a file (no-op when the path already exists). -/
def addFile (fs : FS) (p : EPath) : FS :=
  if p ∈ fs then fs else fs ++ [p]

/-- Create several files in order. -/
def addFiles (fs : FS) (ps : List EPath) : FS :=
  ps.foldl addFile fs

/-- Unlink every listed path (the source's cleanup loops only unlink paths
that exist, so unlink-if-exists and plain filtering coincide). -/
def removeListed (fs : FS) (ps : List EPath) : FS :=
  fs.filter (fun p => decide (p ∉ ps))

/-- Arguments of one invocation of the external combination capability
(`t2smap_workflow(data, echo_times, out_dir)`). -/
structure CombineCall where
  inputs : List EPath
  echo_times : List ℚ
  out_dir : List String
deriving DecidableEq, Repr

/-- Arguments of one invocation of the Spatial Projection Stage
(`_apply_transforms(input_image, output_path, transforms, reference)`). -/
structure ProjCall where
  input : EPath
  output : EPath
  transforms : List EPath
  reference : EPath
deriving DecidableEq, Repr

/-- The environment: read-only input tree, sidecar contents and external
tools.  `combine` returns the files the external tool writes on success, or
an opaque error token when it raises.  `resample` returns `some diagnostic`
on abnormal termination.  `anat_matches d` is the ordered result of
`glob(d, "**/anat/*_from-T1w_to-MNI152NLin2009cAsym_mode-image_xfm.h5")`. -/
structure Env where
  fmriprep_exists : Bool
  subject_dir_exists : Bool
  echo_glob : List EPath
  sidecar_exists : EPath → Bool
  sidecar_echo_time : EPath → Option ℚ
  input_exists : EPath → Bool
  anat_matches : List String → List EPath
  combine : List EPath → List ℚ → List String → Except Nat (List EPath)
  load_raises : EPath → Bool
  resample : ProjCall → Option String
  mkdir_fails : List String → Bool

/-- The `TedanaProcessor` construction state. -/
structure Config where
  fmriprep_dir : List String
  output_dir : List String
  subject_id : String
  trim_by : Int
  apptainer_image : Option String
deriving DecidableEq, Repr

/-- `_normalize_subject_id`. -/
def normalize_subject_id (subject_id : String) : String :=
  if pyStartsWith subject_id "sub-" then subject_id else "sub-" ++ subject_id

/-- `TedanaProcessor.__init__`: note `self.trim_by = trim_by or 0`, which
coerces `None` to `0` and keeps any nonzero integer. -/
def TedanaProcessor_init (fmriprep_dir output_dir : List String)
    (subject_id : String) (trim_by : Option Int)
    (apptainer_image : Option String) : Config :=
  { fmriprep_dir := fmriprep_dir
    output_dir := output_dir
    subject_id := normalize_subject_id subject_id
    trim_by := trim_by.getD 0
    apptainer_image := apptainer_image }

/-- Result of `_parse_filename_components`: the Python dict with the four
fixed keys `sub`, `ses`, `task`, `run` (value `None` when absent). -/
structure FileComponents where
  sub : Option String
  ses : Option String
  task : Option String
  runIdx : Option String
deriving DecidableEq, Repr

/-- `_parse_filename_components`: split on `_`, take the first component
with each prefix (`next((c for c in components if c.startswith(p)), None)`). -/
def parse_filename_components (filename : String) : FileComponents :=
  let components := pysplit filename "_"
  { sub := components.find? (fun c => pyStartsWith c "sub-")
    ses := components.find? (fun c => pyStartsWith c "ses-")
    task := components.find? (fun c => pyStartsWith c "task-")
    runIdx := components.find? (fun c => pyStartsWith c "run-") }

/-- `_create_run_key`: join the truthy components with `_` in the fixed
order `sub`, `ses`, `task`, `run` (Python truthiness drops both `None` and
the empty string). -/
def create_run_key (c : FileComponents) : String :=
  String.intercalate "_"
    (([c.sub, c.ses, c.task, c.runIdx]).filterMap (fun o =>
      match o with
      | some s => if s = "" then none else some s
      | none => none))

/-- The run key of an echo file. -/
def runKeyOf (f : EPath) : String :=
  create_run_key (parse_filename_components f.name)

/-- `build_key` as the claim words it (C6): split on `_`, take the first
component matching each of the prefixes `sub-`, `ses-`, `task-`, `run-`,
join the present ones with `_` in that fixed order, omitting absent
components without a placeholder. -/
def build_key_spec (filename : String) : String :=
  let components := pysplit filename "_"
  String.intercalate "_"
    ((["sub-", "ses-", "task-", "run-"]).filterMap
      (fun p => components.find? (fun c => pyStartsWith c p)))

/-- `_get_echo_file_info`: derive the sidecar path, fail when it does not
exist, fail when `metadata.get("EchoTime")` is `None` (absent or null),
otherwise build the descriptor. -/
def get_echo_file_info (env : Env) (echo_file : EPath) : Except TedErr EchoFileInfo :=
  let json_file := json_path_of echo_file
  if env.sidecar_exists json_file then
    match env.sidecar_echo_time json_file with
    | none => .error (.MissingTimingValue json_file)
    | some t => .ok ⟨echo_file, t, json_file⟩
  else .error (.MissingSidecar json_file)

/-- The descriptor `_get_echo_file_info` returns when it succeeds (the
`getD 0` is only reached when the timing field is present). -/
def mkInfo (env : Env) (echo_file : EPath) : EchoFileInfo :=
  ⟨echo_file, (env.sidecar_echo_time (json_path_of echo_file)).getD 0,
    json_path_of echo_file⟩

/-- `base_name = echo_file.name.split("_echo")[0]`. -/
def baseNameOf (f : EPath) : String :=
  (pysplit f.name "_echo").headD f.name

/-- The glob pattern used for the T1w-to-MNI transform lookup. -/
def anatPattern : String :=
  "*_from-T1w_to-MNI152NLin2009cAsym_mode-image_xfm.h5"

/-- Placeholder path (never the result of a successful lookup). -/
def nullPath : EPath := ⟨[], ""⟩

/-- `_find_transform_files`: three sibling artifacts by fixed naming
templates (checked in the source's dict order), then the first match of the
anat glob under `file_dir.parent.parent`. -/
def find_transform_files (env : Env) (echo_file : EPath) : Except TedErr TransformFiles :=
  let base_name := baseNameOf echo_file
  let file_dir := echo_file.dir
  let bold_to_t1w : EPath :=
    ⟨file_dir, base_name ++ "_from-boldref_to-T1w_mode-image_desc-coreg_xfm.txt"⟩
  let t1w_reference : EPath := ⟨file_dir, base_name ++ "_space-T1w_boldref.nii.gz"⟩
  let mni_reference : EPath :=
    ⟨file_dir, base_name ++ "_space-MNI152NLin2009cAsym_res-2_boldref.nii.gz"⟩
  if ¬ env.input_exists bold_to_t1w then .error (.MissingTransformArtifact bold_to_t1w)
  else if ¬ env.input_exists t1w_reference then .error (.MissingTransformArtifact t1w_reference)
  else if ¬ env.input_exists mni_reference then .error (.MissingTransformArtifact mni_reference)
  else
    match env.anat_matches (file_dir.dropLast.dropLast) with
    | [] => .error (.MissingAnatTransform anatPattern)
    | t1w_to_mni :: _ => .ok ⟨bold_to_t1w, t1w_reference, mni_reference, t1w_to_mni⟩

/-- The transform set `_find_transform_files` returns when it succeeds. -/
def mkTF (env : Env) (echo_file : EPath) : TransformFiles :=
  { bold_to_t1w := ⟨echo_file.dir,
      baseNameOf echo_file ++ "_from-boldref_to-T1w_mode-image_desc-coreg_xfm.txt"⟩
    t1w_reference := ⟨echo_file.dir, baseNameOf echo_file ++ "_space-T1w_boldref.nii.gz"⟩
    mni_reference := ⟨echo_file.dir,
      baseNameOf echo_file ++ "_space-MNI152NLin2009cAsym_res-2_boldref.nii.gz"⟩
    t1w_to_mni := (env.anat_matches (echo_file.dir.dropLast.dropLast)).headD nullPath }

/-- `_find_echo_files`: the recursive glob for
`*echo-*desc-preproc_bold.nii.gz` under the subject directory, after the
existence check.  The enumeration is the environment's. -/
def find_echo_files (cfg : Config) (env : Env) : Except TedErr (List EPath) :=
  if env.subject_dir_exists then .ok env.echo_glob
  else .error (.SubjectNotFound (cfg.fmriprep_dir ++ [cfg.subject_id]))

/-- Stable insertion used to model `list.sort(key=lambda x: x.echo_time)`:
an element is placed after every element whose echo time is strictly
smaller, and before the first element whose echo time is not smaller, so
ties keep their incoming relative order.  A stable sort's output is the
unique sorted permutation respecting incoming order on ties, so this models
Python's (stable) sort exactly. -/
def insertByTE (a : EchoFileInfo) : List EchoFileInfo → List EchoFileInfo
  | [] => [a]
  | b :: l => if a.echo_time ≤ b.echo_time then a :: b :: l else b :: insertByTE a l

/-- Stable sort of an echo sequence ascending by `echo_time`. -/
def sortByTE : List EchoFileInfo → List EchoFileInfo
  | [] => []
  | a :: l => insertByTE a (sortByTE l)

/-- First-match association-list lookup (models `run_groups[key]` /
`key in run_groups` on the Python dict). -/
def lookupRG : List (String × RunGroup) → String → Option RunGroup
  | [], _ => none
  | (k, g) :: rest, key => if k = key then some g else lookupRG rest key

/-- `run_groups[run_key].echo_files.append(echo_info)`: append one
descriptor to the group stored under the key. -/
def appendEcho (acc : List (String × RunGroup)) (key : String) (info : EchoFileInfo) :
    List (String × RunGroup) :=
  acc.map (fun p =>
    if p.1 = key then (p.1, { p.2 with echo_files := p.2.echo_files ++ [info] }) else p)

/-- The per-file loop of `_group_echoes_by_run`.  `acc` is the (insertion
ordered) dict of run groups, `tr` the trace of files on which
`_find_transform_files` has been invoked. -/
def groupRaw (env : Env) : List EPath → List (String × RunGroup) → List EPath →
    Except TedErr (List (String × RunGroup) × List EPath)
  | [], acc, tr => .ok (acc, tr)
  | f :: fs, acc, tr =>
    let run_key := runKeyOf f
    match get_echo_file_info env f with
    | .error e => .error e
    | .ok echo_info =>
      match lookupRG acc run_key with
      | none =>
        match find_transform_files env f with
        | .error e => .error e
        | .ok transforms =>
          groupRaw env fs
            (appendEcho (acc ++ [(run_key, ⟨run_key, [], transforms⟩)]) run_key echo_info)
            (tr ++ [f])
      | some _ => groupRaw env fs (appendEcho acc run_key echo_info) tr

/-- `_group_echoes_by_run`: group the discovered files, then stably sort
each group's echo sequence by echo time.  Also returns the trace of files
that triggered a `_find_transform_files` call. -/
def group_echoes_by_run (env : Env) (echo_files : List EPath) :
    Except TedErr (List (String × RunGroup) × List EPath) :=
  match groupRaw env echo_files [] [] with
  | .error e => .error e
  | .ok (acc, tr) =>
    .ok (acc.map (fun p => (p.1, { p.2 with echo_files := sortByTE p.2.echo_files })), tr)

/-- The files of the enumeration that belong to the given run key, in
enumeration order. -/
def filesWithKey (k : String) (l : List EPath) : List EPath :=
  l.filter (fun f => decide (runKeyOf f = k))

/-- The files that introduce a key not seen before (these are exactly the
files on which the Transform Set Resolver is invoked). -/
def newKeyFiles (seen : List String) : List EPath → List EPath
  | [] => []
  | f :: fs =>
    if runKeyOf f ∈ seen then newKeyFiles seen fs
    else f :: newKeyFiles (seen ++ [runKeyOf f]) fs

/-- Extensional description of the raw grouping pass: what looking up `k`
yields after consuming `l` starting from the accumulated dict `acc`. -/
def groupSpecLookup (env : Env) (l : List EPath) (acc : List (String × RunGroup))
    (k : String) : Option RunGroup :=
  match lookupRG acc k with
  | some g => some { g with echo_files := g.echo_files ++ (filesWithKey k l).map (mkInfo env) }
  | none =>
    match filesWithKey k l with
    | [] => none
    | f :: _ => some ⟨k, (filesWithKey k l).map (mkInfo env), mkTF env f⟩

/-- Lookup in the final grouping result (`none` when grouping fails or the
key is absent). -/
def groupLookup (env : Env) (l : List EPath) (k : String) : Option RunGroup :=
  match group_echoes_by_run env l with
  | .ok (acc, _) => lookupRG acc k
  | .error _ => none

/-- `output_dir / "tedana_combined" / f"{key}_rec-tedana"`. -/
def optcomDirOf (cfg : Config) (key : String) : List String :=
  cfg.output_dir ++ ["tedana_combined", key ++ "_rec-tedana"]

/-- The deterministic combined-output path of a run. -/
def optcomPathOf (cfg : Config) (key : String) : EPath :=
  ⟨optcomDirOf cfg key, "desc-optcom_bold.nii.gz"⟩

/-- Result of the trimming loop: filesystem, the temporary artifacts
created (the Python `trimmed_files` list), and whether some load raised. -/
structure TrimOut where
  fs : FS
  temps : List EPath
  result : Except TedErr Unit
deriving DecidableEq, Repr

/-- The trimming loop of `_run_tedana`: for each echo (with 1-based index in
the temp file name), load-and-trim — which may raise — then save the
temporary artifact and record it. -/
def trimLoop (env : Env) (outDir : List String) :
    List EchoFileInfo → Nat → FS → TrimOut
  | [], _, fs => ⟨fs, [], .ok ()⟩
  | e :: rest, i, fs =>
    if env.load_raises e.file_path then ⟨fs, [], .error (.LoadError e.file_path)⟩
    else
      let temp := tempEPath outDir (i + 1)
      let out := trimLoop env outDir rest (i + 1) (addFile fs temp)
      ⟨out.fs, temp :: out.temps, out.result⟩

/-- Result of `_run_tedana`: filesystem, trace of invocations of the
external combination capability, and the returned path or the raised
error. -/
structure RTOut where
  fs : FS
  combine_calls : List CombineCall
  result : Except TedErr EPath
deriving DecidableEq, Repr

/-- `_run_tedana`: skip when the declared output already exists; otherwise
either trim into temporaries, combine, and clean the temporaries up (also on
any failure, re-raising the original error afterwards), or combine directly
on the original files; finally verify the declared output exists.
(`output_dir.mkdir` only touches directories, which the file-level state
does not track.) -/
def run_tedana (cfg : Config) (env : Env) (rg : RunGroup) (fs : FS) : RTOut :=
  let output_dir := optcomDirOf cfg rg.key
  let optcom_file := optcomPathOf cfg rg.key
  if optcom_file ∈ fs then ⟨fs, [], .ok optcom_file⟩
  else
    let echo_times := rg.echo_files.map (fun e => e.echo_time)
    let echo_file_paths := rg.echo_files.map (fun e => e.file_path)
    if 0 < cfg.trim_by then
      let t := trimLoop env output_dir rg.echo_files 0 fs
      match t.result with
      | .error e =>
        -- exception inside the `try`: unlink the created temporaries that
        -- exist, then `raise e`
        ⟨removeListed t.fs t.temps, [], .error e⟩
      | .ok _ =>
        match env.combine t.temps echo_times output_dir with
        | .error c =>
          ⟨removeListed t.fs t.temps, [⟨t.temps, echo_times, output_dir⟩],
            .error (.ExternalError c)⟩
        | .ok written =>
          -- success: unlink the temporaries (each was created above and the
          -- external tool only adds files, so each still exists)
          let fs₂ := removeListed (addFiles t.fs written) t.temps
          if optcom_file ∈ fs₂ then
            ⟨fs₂, [⟨t.temps, echo_times, output_dir⟩], .ok optcom_file⟩
          else
            ⟨fs₂, [⟨t.temps, echo_times, output_dir⟩],
              .error (.CombinationOutputMissing optcom_file)⟩
    else
      match env.combine echo_file_paths echo_times output_dir with
      | .error c =>
        ⟨fs, [⟨echo_file_paths, echo_times, output_dir⟩], .error (.ExternalError c)⟩
      | .ok written =>
        let fs₂ := addFiles fs written
        if optcom_file ∈ fs₂ then
          ⟨fs₂, [⟨echo_file_paths, echo_times, output_dir⟩], .ok optcom_file⟩
        else
          ⟨fs₂, [⟨echo_file_paths, echo_times, output_dir⟩],
            .error (.CombinationOutputMissing optcom_file)⟩

/-- Result of `_apply_transforms`: filesystem, the stage invocation (its
arguments), and the returned path or the raised error. -/
structure ATOut where
  fs : FS
  call : ProjCall
  result : Except TedErr EPath
deriving DecidableEq, Repr

/-- `_apply_transforms`: skip when the output already exists; otherwise
ensure the output directory, then invoke the external resampling capability
(the apptainer and nipype branches pass identical arguments, so they are one
oracle) and fail with its diagnostic on abnormal termination. -/
def apply_transforms (env : Env) (input_image output_path : EPath)
    (transforms : List EPath) (reference : EPath) (fs : FS) : ATOut :=
  let call : ProjCall := ⟨input_image, output_path, transforms, reference⟩
  if output_path ∈ fs then ⟨fs, call, .ok output_path⟩
  else if env.mkdir_fails output_path.dir then
    ⟨fs, call, .error (.DirectoryCreationFailed output_path.dir)⟩
  else
    match env.resample call with
    | some diag => ⟨fs, call, .error (.ProjectionFailed diag)⟩
    | none => ⟨addFile fs output_path, call, .ok output_path⟩

/-- Result of `_process_tedana_outputs`: filesystem, trace of Spatial
Projection Stage invocations, and the two output paths or the error. -/
structure PTOut where
  fs : FS
  stage_calls : List ProjCall
  result : Except TedErr (EPath × EPath)
deriving DecidableEq, Repr

/-- The T1w-space output path of a run. -/
def t1wOutputOf (cfg : Config) (run_key : String) : EPath :=
  ⟨cfg.output_dir ++ ["transformed", run_key],
    run_key ++ "_space-T1w_desc-optcom_bold.nii.gz"⟩

/-- The MNI-space output path of a run. -/
def mniOutputOf (cfg : Config) (run_key : String) : EPath :=
  ⟨cfg.output_dir ++ ["transformed", run_key],
    run_key ++ "_space-MNI152NLin2009cAsym_desc-optcom_bold.nii.gz"⟩

/-- `_process_tedana_outputs`: project the combined output into T1w space
with `[bold_to_t1w]` against the T1w reference, then into MNI space with
`[t1w_to_mni, bold_to_t1w]` against the MNI reference. -/
def process_tedana_outputs (cfg : Config) (env : Env) (optcom_file : EPath)
    (transforms : TransformFiles) (run_key : String) (fs : FS) : PTOut :=
  let a₁ := apply_transforms env optcom_file (t1wOutputOf cfg run_key)
    [transforms.bold_to_t1w] transforms.t1w_reference fs
  match a₁.result with
  | .error e => ⟨a₁.fs, [a₁.call], .error e⟩
  | .ok t1w_result =>
    let a₂ := apply_transforms env optcom_file (mniOutputOf cfg run_key)
      [transforms.t1w_to_mni, transforms.bold_to_t1w] transforms.mni_reference a₁.fs
    match a₂.result with
    | .error e => ⟨a₂.fs, [a₁.call, a₂.call], .error e⟩
    | .ok mni_result => ⟨a₂.fs, [a₁.call, a₂.call], .ok (t1w_result, mni_result)⟩

/-- The echo-count validation loop of `process`: the key and count of the
first run group whose echo sequence does not have exactly 3 elements. -/
def checkEchoCounts : List (String × RunGroup) → Option (String × Nat)
  | [] => none
  | (k, g) :: rest =>
    if g.echo_files.length ≠ 3 then some (k, g.echo_files.length)
    else checkEchoCounts rest

/-- Result of the orchestration: filesystem, resolver/combination/projection
call traces, and the per-run result records or the raised error. -/
structure ProcOut where
  fs : FS
  resolver_calls : List EPath
  combine_calls : List CombineCall
  stage_calls : List ProjCall
  result : Except TedErr (List (String × (EPath × EPath × EPath)))
deriving DecidableEq, Repr

/-- The sequential per-run loop of `process`: combination stage, then the
two projection stages, collecting one result record per run; any failure
aborts the whole invocation. -/
def processLoop (cfg : Config) (env : Env) :
    List (String × RunGroup) → FS →
    FS × List CombineCall × List ProjCall ×
      Except TedErr (List (String × (EPath × EPath × EPath)))
  | [], fs => (fs, [], [], .ok [])
  | (run_key, rg) :: rest, fs =>
    let r := run_tedana cfg env rg fs
    match r.result with
    | .error e => (r.fs, r.combine_calls, [], .error e)
    | .ok optcom_file =>
      let p := process_tedana_outputs cfg env optcom_file rg.transforms run_key r.fs
      match p.result with
      | .error e => (p.fs, r.combine_calls, p.stage_calls, .error e)
      | .ok (t1w_output, mni_output) =>
        let next := processLoop cfg env rest p.fs
        (next.1, r.combine_calls ++ next.2.1, p.stage_calls ++ next.2.2.1,
          match next.2.2.2 with
          | .error e => .error e
          | .ok results => .ok ((run_key, (optcom_file, t1w_output, mni_output)) :: results))

/-- `process`: validate the fMRIPrep directory, discover and group the echo
files, validate every group's echo count, then process each run group in
mapping order. -/
def process (cfg : Config) (env : Env) (fs₀ : FS) : ProcOut :=
  if ¬ env.fmriprep_exists then
    ⟨fs₀, [], [], [], .error (.FmriprepNotFound cfg.fmriprep_dir)⟩
  else
    match find_echo_files cfg env with
    | .error e => ⟨fs₀, [], [], [], .error e⟩
    | .ok echo_files =>
      match group_echoes_by_run env echo_files with
      | .error e => ⟨fs₀, [], [], [], .error e⟩
      | .ok (run_groups, rtr) =>
        match checkEchoCounts run_groups with
        | some (k, c) => ⟨fs₀, rtr, [], [], .error (.EchoCountMismatch k c)⟩
        | none =>
          let out := processLoop cfg env run_groups fs₀
          ⟨out.1, rtr, out.2.1, out.2.2.1, out.2.2.2⟩

/-- The run groups discovered for the environment's enumeration (empty when
grouping fails). -/
def groupsOf (env : Env) : List (String × RunGroup) :=
  match group_echoes_by_run env env.echo_glob with
  | .ok (acc, _) => acc
  | .error _ => []

/-- The arguments of the anatomical-space (T1w) projection call of a run:
single transform `[bold_to_t1w]`, T1w reference. -/
def anatCall (cfg : Config) (run_key : String) (tf : TransformFiles) : ProjCall :=
  ⟨optcomPathOf cfg run_key, t1wOutputOf cfg run_key, [tf.bold_to_t1w], tf.t1w_reference⟩

/-- The arguments of the standard-space (MNI) projection call of a run:
transforms `[t1w_to_mni, bold_to_t1w]` in that order, MNI reference. -/
def stdCall (cfg : Config) (run_key : String) (tf : TransformFiles) : ProjCall :=
  ⟨optcomPathOf cfg run_key, mniOutputOf cfg run_key,
    [tf.t1w_to_mni, tf.bold_to_t1w], tf.mni_reference⟩

/-! ### Concrete test data for the witnesses -/

/-- Directory of the concrete echo files. -/
def wDir : List String := ["sub-1", "func"]

/-- Concrete echo file paths (same run, echo indices 1..3). -/
def wEcho1 : EPath := ⟨wDir, "sub-1_task-a_echo-1_bold.nii.gz"⟩

/-- Second concrete echo file. -/
def wEcho2 : EPath := ⟨wDir, "sub-1_task-a_echo-2_bold.nii.gz"⟩

/-- Third concrete echo file. -/
def wEcho3 : EPath := ⟨wDir, "sub-1_task-a_echo-3_bold.nii.gz"⟩

/-- The concrete anat transform artifact. -/
def wAnat : EPath :=
  ⟨["sub-1", "anat"], "sub-1_from-T1w_to-MNI152NLin2009cAsym_mode-image_xfm.h5"⟩

/-- A healthy environment: three echoes of one run with echo times 1, 2, 3,
all sidecars and transform artifacts present, external tools succeeding (the
combination tool writes exactly its declared output). -/
def wEnv : Env :=
  { fmriprep_exists := true
    subject_dir_exists := true
    echo_glob := [wEcho1, wEcho2, wEcho3]
    sidecar_exists := fun _ => true
    sidecar_echo_time := fun p =>
      if p = json_path_of wEcho1 then some 1
      else if p = json_path_of wEcho2 then some 2
      else if p = json_path_of wEcho3 then some 3
      else none
    input_exists := fun _ => true
    anat_matches := fun _ => [wAnat]
    combine := fun _ _ d => .ok [⟨d, "desc-optcom_bold.nii.gz"⟩]
    load_raises := fun _ => false
    resample := fun _ => none
    mkdir_fails := fun _ => false }

/-- A concrete configuration without trimming. -/
def wCfg : Config := ⟨["fp"], ["out"], "sub-1", 0, none⟩

/-- The same configuration with trimming enabled. -/
def wCfgTrim : Config := ⟨["fp"], ["out"], "sub-1", 2, none⟩

/-- The transform set all three concrete echoes resolve to. -/
def wTF : TransformFiles := mkTF wEnv wEcho1

/-- A concrete run group with three echoes (as discovery produces it). -/
def wRG : RunGroup :=
  ⟨"sub-1_task-a", [mkInfo wEnv wEcho1, mkInfo wEnv wEcho2, mkInfo wEnv wEcho3], wTF⟩

/-- The healthy environment, with the combination capability raising. -/
def wEnvCombineFails : Env :=
  { wEnv with combine := fun _ _ _ => .error 7 }

/-- The healthy environment, with loading of the second echo raising. -/
def wEnvLoadFails : Env :=
  { wEnv with load_raises := fun p => p = wEcho2 }

/-- The healthy environment restricted to two discovered echoes. -/
def wEnvTwoEchoes : Env :=
  { wEnv with echo_glob := [wEcho1, wEcho2] }

/-- The healthy environment with all echo times equal (a timing tie). -/
def wEnvTie : Env :=
  { wEnv with sidecar_echo_time := fun _ => some 1 }

/-- An environment in which no sidecar exists. -/
def wEnvNoSidecar : Env :=
  { wEnv with sidecar_exists := fun _ => false }

/-- An environment in which the sidecar exists but carries no usable
`EchoTime` (absent or null). -/
def wEnvNoTime : Env :=
  { wEnv with sidecar_echo_time := fun _ => none }

/-! ### Success shapes of the resolvers -/

/-- The echo-time ordering on descriptors used by the grouping sort. -/
def leTE (a b : EchoFileInfo) : Prop := a.echo_time ≤ b.echo_time

theorem get_echo_file_info_ok_eq (env : Env) (f : EPath)
    (h : (get_echo_file_info env f).isOk = true) :
    get_echo_file_info env f = .ok (mkInfo env f) := by
  unfold get_echo_file_info mkInfo
  unfold get_echo_file_info at h
  cases h1 : env.sidecar_exists (json_path_of f) with
  | false => simp [h1, Except.isOk, Except.toBool] at h
  | true =>
    cases h2 : env.sidecar_echo_time (json_path_of f) with
    | none => simp [h1, h2, Except.isOk, Except.toBool] at h
    | some t => simp [h1, h2]

theorem find_transform_files_ok_eq (env : Env) (f : EPath)
    (h : (find_transform_files env f).isOk = true) :
    find_transform_files env f = .ok (mkTF env f) := by
  unfold find_transform_files mkTF
  unfold find_transform_files at h
  cases h1 : env.input_exists
      ⟨f.dir, baseNameOf f ++ "_from-boldref_to-T1w_mode-image_desc-coreg_xfm.txt"⟩ with
  | false => simp [h1, Except.isOk, Except.toBool] at h
  | true =>
    cases h2 : env.input_exists ⟨f.dir, baseNameOf f ++ "_space-T1w_boldref.nii.gz"⟩ with
    | false => simp [h1, h2, Except.isOk, Except.toBool] at h
    | true =>
      cases h3 : env.input_exists
          ⟨f.dir, baseNameOf f ++ "_space-MNI152NLin2009cAsym_res-2_boldref.nii.gz"⟩ with
      | false => simp [h1, h2, h3, Except.isOk, Except.toBool] at h
      | true =>
        cases h4 : env.anat_matches (f.dir.dropLast.dropLast) with
        | nil => simp [h1, h2, h3, h4, Except.isOk, Except.toBool] at h
        | cons m ms => simp [h1, h2, h3, h4]

/-! ### The stable sort -/

theorem insertByTE_perm (a : EchoFileInfo) (l : List EchoFileInfo) :
    List.Perm (insertByTE a l) (a :: l) := by
  induction l with
  | nil => simp [insertByTE]
  | cons b t ih =>
    unfold insertByTE
    by_cases h : a.echo_time ≤ b.echo_time
    · simp [h]
    · simp only [if_neg h]
      exact ((ih.cons b).trans (List.Perm.swap a b t))

theorem sortByTE_perm (l : List EchoFileInfo) : List.Perm (sortByTE l) l := by
  induction l with
  | nil => simp [sortByTE]
  | cons a t ih => exact (insertByTE_perm a (sortByTE t)).trans (ih.cons a)

theorem insertByTE_pairwise (a : EchoFileInfo) (l : List EchoFileInfo)
    (h : l.Pairwise leTE) : (insertByTE a l).Pairwise leTE := by
  induction l with
  | nil => simp [insertByTE, leTE]
  | cons b t ih =>
    rcases List.pairwise_cons.mp h with ⟨hb, ht⟩
    unfold insertByTE
    by_cases hab : a.echo_time ≤ b.echo_time
    · simp only [if_pos hab]
      refine List.pairwise_cons.mpr ⟨?_, h⟩
      intro x hx
      rcases List.mem_cons.mp hx with rfl | hx
      · exact hab
      · exact le_trans hab (hb x hx)
    · simp only [if_neg hab]
      refine List.pairwise_cons.mpr ⟨?_, ih ht⟩
      intro x hx
      rcases List.mem_cons.mp ((insertByTE_perm a t).mem_iff.mp hx) with rfl | hx
      · exact le_of_not_le hab
      · exact hb x hx

theorem sortByTE_pairwise (l : List EchoFileInfo) : (sortByTE l).Pairwise leTE := by
  induction l with
  | nil => simp [sortByTE]
  | cons a t ih => exact insertByTE_pairwise a (sortByTE t) ih

theorem insertByTE_filter (a : EchoFileInfo) (l : List EchoFileInfo) (t : ℚ) :
    (insertByTE a l).filter (fun x => decide (x.echo_time = t)) =
      if a.echo_time = t then a :: l.filter (fun x => decide (x.echo_time = t))
      else l.filter (fun x => decide (x.echo_time = t)) := by
  induction l with
  | nil => by_cases h : a.echo_time = t <;> simp [insertByTE, List.filter, h]
  | cons b tl ih =>
    unfold insertByTE
    by_cases hab : a.echo_time ≤ b.echo_time
    · rw [if_pos hab]
      by_cases h : a.echo_time = t <;> by_cases hbt : b.echo_time = t <;>
        simp [List.filter_cons, h, hbt]
    · rw [if_neg hab]
      have hba : b.echo_time < a.echo_time := lt_of_not_le hab
      by_cases h : a.echo_time = t <;> by_cases hbt : b.echo_time = t
      · exact absurd (hbt.trans h.symm) (ne_of_lt hba)
      · simp [List.filter_cons, h, hbt, ih]
      · simp [List.filter_cons, h, hbt, ih]
      · simp [List.filter_cons, h, hbt, ih]

theorem sortByTE_filter (l : List EchoFileInfo) (t : ℚ) :
    (sortByTE l).filter (fun x => decide (x.echo_time = t)) =
      l.filter (fun x => decide (x.echo_time = t)) := by
  induction l with
  | nil => simp [sortByTE]
  | cons a tl ih =>
    show (insertByTE a (sortByTE tl)).filter _ = _
    rw [insertByTE_filter]
    by_cases h : a.echo_time = t <;> simp [List.filter_cons, h, ih]

theorem sorted_perm_eq :
    ∀ (l₁ l₂ : List EchoFileInfo), List.Perm l₁ l₂ →
      l₁.Pairwise leTE → l₂.Pairwise leTE →
      (∀ a ∈ l₁, ∀ b ∈ l₁, a.echo_time = b.echo_time → a = b) → l₁ = l₂
  | [], l₂, hp, _, _, _ => (hp.nil_eq).symm ▸ rfl
  | a :: t₁, l₂, hp, h₁, h₂, hinj => by
    cases l₂ with
    | nil => exact absurd hp.symm (by simp)
    | cons b t₂ =>
      rcases List.pairwise_cons.mp h₁ with ⟨ha, ht₁⟩
      rcases List.pairwise_cons.mp h₂ with ⟨hb, ht₂⟩
      have hab : a = b := by
        have hmem : a ∈ b :: t₂ := hp.mem_iff.mp (List.mem_cons_self a t₁)
        rcases List.mem_cons.mp hmem with rfl | hmem
        · rfl
        · have hba : b.echo_time ≤ a.echo_time := hb a hmem
          have hmb : b ∈ a :: t₁ := hp.mem_iff.mpr (List.mem_cons_self b t₂)
          rcases List.mem_cons.mp hmb with rfl | hmb
          · rfl
          · have hab2 : a.echo_time ≤ b.echo_time := ha b hmb
            exact hinj a (List.mem_cons_self a t₁) b (List.mem_cons.mpr (Or.inr hmb))
              (le_antisymm hab2 hba)
      subst hab
      have htp : List.Perm t₁ t₂ := hp.cons_inv
      have : t₁ = t₂ := sorted_perm_eq t₁ t₂ htp ht₁ ht₂
        (fun x hx y hy => hinj x (List.mem_cons.mpr (Or.inr hx)) y (List.mem_cons.mpr (Or.inr hy)))
      rw [this]

/-! ### Association-list lemmas for the run-group dict -/

theorem lookupRG_eq_none_iff (acc : List (String × RunGroup)) (k : String) :
    lookupRG acc k = none ↔ k ∉ acc.map Prod.fst := by
  induction acc with
  | nil => simp [lookupRG]
  | cons p rest ih =>
    rcases p with ⟨k₀, g⟩
    by_cases h : k₀ = k
    · subst h
      simp [lookupRG]
    · rw [show lookupRG ((k₀, g) :: rest) k = lookupRG rest k from if_neg h, ih]
      constructor
      · intro hn hmem
        rcases List.mem_cons.mp hmem with rfl | hmem
        · exact h rfl
        · exact hn hmem
      · exact fun hn hmem => hn (List.mem_cons.mpr (Or.inr hmem))

theorem lookupRG_cons (k₀ : String) (g : RunGroup) (rest : List (String × RunGroup))
    (k : String) :
    lookupRG ((k₀, g) :: rest) k = if k₀ = k then some g else lookupRG rest k := rfl

theorem appendEcho_cons (k₀ : String) (g : RunGroup) (rest : List (String × RunGroup))
    (k : String) (info : EchoFileInfo) :
    appendEcho ((k₀, g) :: rest) k info =
      (if k₀ = k then (k₀, { g with echo_files := g.echo_files ++ [info] }) else (k₀, g))
        :: appendEcho rest k info := by
  by_cases h : k₀ = k <;> simp [appendEcho, h]

theorem lookupRG_appendEcho (acc : List (String × RunGroup)) (k : String)
    (info : EchoFileInfo) (k' : String) :
    lookupRG (appendEcho acc k info) k' =
      if k' = k then
        (lookupRG acc k').map (fun g => { g with echo_files := g.echo_files ++ [info] })
      else lookupRG acc k' := by
  induction acc with
  | nil => by_cases h : k' = k <;> simp [appendEcho, lookupRG, h]
  | cons p rest ih =>
    rcases p with ⟨k₀, g⟩
    rw [appendEcho_cons]
    by_cases h0 : k₀ = k
    · rw [if_pos h0, lookupRG_cons, lookupRG_cons]
      by_cases h1 : k₀ = k'
      · have hk : k' = k := h1.symm.trans h0
        rw [if_pos h1, if_pos hk, if_pos h1]
        rfl
      · rw [if_neg h1, if_neg h1, ih]
    · rw [if_neg h0, lookupRG_cons, lookupRG_cons]
      by_cases h1 : k₀ = k'
      · have hk : ¬ k' = k := fun h => h0 (h1.trans h)
        rw [if_pos h1, if_neg hk, if_pos h1]
      · rw [if_neg h1, if_neg h1, ih]

theorem lookupRG_append (acc₁ acc₂ : List (String × RunGroup)) (k : String) :
    lookupRG (acc₁ ++ acc₂) k =
      match lookupRG acc₁ k with
      | some g => some g
      | none => lookupRG acc₂ k := by
  induction acc₁ with
  | nil => simp [lookupRG]
  | cons p rest ih =>
    rcases p with ⟨k₀, g⟩
    by_cases h : k₀ = k <;> simp [lookupRG_cons, List.cons_append, h, ih]

theorem appendEcho_map_fst (acc : List (String × RunGroup)) (k : String)
    (info : EchoFileInfo) :
    (appendEcho acc k info).map Prod.fst = acc.map Prod.fst := by
  induction acc with
  | nil => simp [appendEcho]
  | cons p rest ih =>
    rcases p with ⟨k₀, g⟩
    rw [appendEcho_cons]
    by_cases h : k₀ = k <;> simp [h, ih]

theorem filesWithKey_cons (k : String) (f : EPath) (l : List EPath) :
    filesWithKey k (f :: l) =
      if runKeyOf f = k then f :: filesWithKey k l else filesWithKey k l := by
  by_cases h : runKeyOf f = k <;> simp [filesWithKey, List.filter_cons, h]

/-! ### Properties of the resolver-call trace -/

theorem newKeyFiles_mem_not_seen (seen : List String) (l : List EPath) :
    ∀ f ∈ newKeyFiles seen l, runKeyOf f ∉ seen := by
  induction l generalizing seen with
  | nil => simp [newKeyFiles]
  | cons g fs ih =>
    unfold newKeyFiles
    by_cases h : runKeyOf g ∈ seen
    · rw [if_pos h]; exact ih seen
    · rw [if_neg h]
      intro f hf
      rcases List.mem_cons.mp hf with rfl | hf
      · exact h
      · intro hmem
        exact ih (seen ++ [runKeyOf g]) f hf (List.mem_append.mpr (Or.inl hmem))

theorem newKeyFiles_keys_nodup (seen : List String) (l : List EPath) :
    ((newKeyFiles seen l).map runKeyOf).Nodup := by
  induction l generalizing seen with
  | nil => simp [newKeyFiles]
  | cons g fs ih =>
    unfold newKeyFiles
    by_cases h : runKeyOf g ∈ seen
    · rw [if_pos h]; exact ih seen
    · rw [if_neg h]
      simp only [List.map_cons]
      refine List.nodup_cons.mpr ⟨?_, ih _⟩
      intro hmem
      rcases List.mem_map.mp hmem with ⟨f, hf, hkey⟩
      exact newKeyFiles_mem_not_seen _ _ f hf
        (List.mem_append.mpr (Or.inr (by simp [hkey])))

theorem newKeyFiles_first (seen : List String) (l : List EPath) :
    ∀ f ∈ newKeyFiles seen l, (filesWithKey (runKeyOf f) l).head? = some f := by
  induction l generalizing seen with
  | nil => simp [newKeyFiles]
  | cons g fs ih =>
    unfold newKeyFiles
    by_cases h : runKeyOf g ∈ seen
    · rw [if_pos h]
      intro f hf
      have hns := newKeyFiles_mem_not_seen seen fs f hf
      have hne : ¬ runKeyOf g = runKeyOf f := fun he => hns (he ▸ h)
      rw [filesWithKey_cons, if_neg hne]
      exact ih seen f hf
    · rw [if_neg h]
      intro f hf
      rcases List.mem_cons.mp hf with rfl | hf
      · rw [filesWithKey_cons, if_pos rfl]; rfl
      · have hns := newKeyFiles_mem_not_seen _ _ f hf
        have hne : ¬ runKeyOf g = runKeyOf f := fun he =>
          hns (List.mem_append.mpr (Or.inr (by simp [he])))
        rw [filesWithKey_cons, if_neg hne]
        exact ih _ f hf

theorem newKeyFiles_covers (seen : List String) (l : List EPath) (k : String)
    (hk : k ∉ seen) :
    (∃ f ∈ l, runKeyOf f = k) ↔ k ∈ (newKeyFiles seen l).map runKeyOf := by
  induction l generalizing seen with
  | nil => simp [newKeyFiles]
  | cons g fs ih =>
    unfold newKeyFiles
    by_cases h : runKeyOf g ∈ seen
    · rw [if_pos h]
      constructor
      · rintro ⟨f, hf, rfl⟩
        rcases List.mem_cons.mp hf with rfl | hf
        · exact absurd h hk
        · exact (ih seen hk).mp ⟨f, hf, rfl⟩
      · intro hm
        rcases (ih seen hk).mpr hm with ⟨f, hf, hkey⟩
        exact ⟨f, List.mem_cons.mpr (Or.inr hf), hkey⟩
    · rw [if_neg h]
      simp only [List.map_cons]
      by_cases hg : runKeyOf g = k
      · constructor
        · intro _; exact List.mem_cons.mpr (Or.inl hg.symm)
        · intro _; exact ⟨g, List.mem_cons_self g fs, hg⟩
      · have hk2 : k ∉ seen ++ [runKeyOf g] := by
          intro hmem
          rcases List.mem_append.mp hmem with hmem | hmem
          · exact hk hmem
          · exact hg (show k = runKeyOf g by simpa using hmem).symm
        constructor
        · rintro ⟨f, hf, rfl⟩
          rcases List.mem_cons.mp hf with rfl | hf
          · exact absurd rfl hg
          · exact List.mem_cons.mpr (Or.inr ((ih _ hk2).mp ⟨f, hf, rfl⟩))
        · intro hm
          rcases List.mem_cons.mp hm with rfl | hm
          · exact absurd rfl hg
          · rcases (ih _ hk2).mpr hm with ⟨f, hf, hkey⟩
            exact ⟨f, List.mem_cons.mpr (Or.inr hf), hkey⟩

/-! ### Extensional characterization of the grouping pass -/

theorem groupRaw_char (env : Env) :
    ∀ (l : List EPath) (acc : List (String × RunGroup)) (tr : List EPath),
    (∀ f ∈ l, (get_echo_file_info env f).isOk = true) →
    (∀ f ∈ l, (find_transform_files env f).isOk = true) →
    ∃ acc' tr', groupRaw env l acc tr = .ok (acc', tr') ∧
      (∀ k, lookupRG acc' k = groupSpecLookup env l acc k) ∧
      tr' = tr ++ newKeyFiles (acc.map Prod.fst) l := by
  intro l
  induction l with
  | nil =>
    intro acc tr _ _
    refine ⟨acc, tr, rfl, ?_, by simp [newKeyFiles]⟩
    intro k
    unfold groupSpecLookup
    cases hlk : lookupRG acc k with
    | none => simp [filesWithKey]
    | some g => simp [filesWithKey]
  | cons f fs ih =>
    intro acc tr hinfo htf
    have hinfo_f : get_echo_file_info env f = .ok (mkInfo env f) :=
      get_echo_file_info_ok_eq env f (hinfo f (List.mem_cons_self f fs))
    have hinfo' : ∀ x ∈ fs, (get_echo_file_info env x).isOk = true :=
      fun x hx => hinfo x (List.mem_cons.mpr (Or.inr hx))
    have htf' : ∀ x ∈ fs, (find_transform_files env x).isOk = true :=
      fun x hx => htf x (List.mem_cons.mpr (Or.inr hx))
    cases hlk : lookupRG acc (runKeyOf f) with
    | some g0 =>
      have hstep : groupRaw env (f :: fs) acc tr =
          groupRaw env fs (appendEcho acc (runKeyOf f) (mkInfo env f)) tr := by
        simp [groupRaw, hinfo_f, hlk]
      rcases ih (appendEcho acc (runKeyOf f) (mkInfo env f)) tr hinfo' htf' with
        ⟨acc', tr', hrun, hlook, htr⟩
      refine ⟨acc', tr', hstep.trans hrun, ?_, ?_⟩
      · intro k
        rw [hlook k]
        unfold groupSpecLookup
        rw [lookupRG_appendEcho]
        by_cases hk : k = runKeyOf f
        · rw [if_pos hk, hk, hlk, filesWithKey_cons, if_pos rfl]
          simp
        · rw [if_neg hk, filesWithKey_cons, if_neg (fun h => hk h.symm)]
      · rw [htr, appendEcho_map_fst]
        have hmem : runKeyOf f ∈ acc.map Prod.fst := by
          by_contra hn
          rw [← lookupRG_eq_none_iff] at hn
          rw [hlk] at hn
          exact Option.noConfusion hn
        rw [show newKeyFiles (acc.map Prod.fst) (f :: fs)
            = newKeyFiles (acc.map Prod.fst) fs from by
          unfold newKeyFiles; rw [if_pos hmem]; cases fs <;> rfl]
    | none =>
      have htf_f : find_transform_files env f = .ok (mkTF env f) :=
        find_transform_files_ok_eq env f (htf f (List.mem_cons_self f fs))
      have hstep : groupRaw env (f :: fs) acc tr =
          groupRaw env fs
            (appendEcho (acc ++ [(runKeyOf f, ⟨runKeyOf f, [], mkTF env f⟩)])
              (runKeyOf f) (mkInfo env f))
            (tr ++ [f]) := by
        simp [groupRaw, hinfo_f, hlk, htf_f]
      rcases ih (appendEcho (acc ++ [(runKeyOf f, ⟨runKeyOf f, [], mkTF env f⟩)])
          (runKeyOf f) (mkInfo env f)) (tr ++ [f]) hinfo' htf' with
        ⟨acc', tr', hrun, hlook, htr⟩
      refine ⟨acc', tr', hstep.trans hrun, ?_, ?_⟩
      · intro k
        rw [hlook k]
        unfold groupSpecLookup
        rw [lookupRG_appendEcho, lookupRG_append]
        by_cases hk : k = runKeyOf f
        · rw [if_pos hk, hk, hlk, lookupRG_cons, if_pos rfl,
            filesWithKey_cons, if_pos rfl]
          simp
        · rw [if_neg hk, lookupRG_cons, if_neg (fun h => hk h.symm),
            filesWithKey_cons, if_neg (fun h => hk h.symm)]
          cases hacc : lookupRG acc k <;> simp [lookupRG]
      · rw [htr, appendEcho_map_fst]
        have hnmem : runKeyOf f ∉ acc.map Prod.fst := (lookupRG_eq_none_iff acc _).mp hlk
        rw [show ((acc ++ [(runKeyOf f, (⟨runKeyOf f, [], mkTF env f⟩ : RunGroup))]).map
              Prod.fst) = acc.map Prod.fst ++ [runKeyOf f] from by simp]
        rw [show newKeyFiles (acc.map Prod.fst) (f :: fs)
            = f :: newKeyFiles (acc.map Prod.fst ++ [runKeyOf f]) fs from by
          unfold newKeyFiles; rw [if_neg hnmem]; cases fs <;> rfl]
        simp

theorem mem_filesWithKey {f : EPath} {k : String} {l : List EPath} :
    f ∈ filesWithKey k l ↔ f ∈ l ∧ runKeyOf f = k := by
  simp [filesWithKey]

theorem lookupRG_map_sort (acc : List (String × RunGroup)) (k : String) :
    lookupRG (acc.map (fun p => (p.1, { p.2 with echo_files := sortByTE p.2.echo_files }))) k
      = (lookupRG acc k).map (fun g => { g with echo_files := sortByTE g.echo_files }) := by
  induction acc with
  | nil => simp [lookupRG]
  | cons p rest ih =>
    rcases p with ⟨k₀, g⟩
    by_cases h : k₀ = k <;> simp [List.map_cons, lookupRG_cons, h, ih]

/-- Extensional description of a successful grouping run: looking up `k`
either fails (no file of that key) or yields the group whose echo sequence
is the stable sort of the discovery-ordered descriptors of the key's files
and whose transforms come from the first file of that key. -/
theorem group_char (env : Env) (l : List EPath)
    (hinfo : ∀ f ∈ l, (get_echo_file_info env f).isOk = true)
    (htf : ∀ f ∈ l, (find_transform_files env f).isOk = true) :
    ∃ acc tr, group_echoes_by_run env l = .ok (acc, tr) ∧
      (∀ k, lookupRG acc k =
        match filesWithKey k l with
        | [] => none
        | f :: _ => some ⟨k, sortByTE ((filesWithKey k l).map (mkInfo env)), mkTF env f⟩) ∧
      tr = newKeyFiles [] l := by
  rcases groupRaw_char env l [] [] hinfo htf with ⟨acc₀, tr, hrun, hlook, htr⟩
  refine ⟨acc₀.map (fun p => (p.1, { p.2 with echo_files := sortByTE p.2.echo_files })),
    tr, ?_, ?_, by simpa using htr⟩
  · unfold group_echoes_by_run
    rw [hrun]
  · intro k
    rw [lookupRG_map_sort, hlook k]
    unfold groupSpecLookup
    cases hf : filesWithKey k l with
    | nil => simp [lookupRG, hf]
    | cons f rest => simp [lookupRG, hf]

/-- The lookup view of a successful grouping. -/
theorem groupLookup_char (env : Env) (l : List EPath)
    (hinfo : ∀ f ∈ l, (get_echo_file_info env f).isOk = true)
    (htf : ∀ f ∈ l, (find_transform_files env f).isOk = true) :
    ∀ k, groupLookup env l k =
      match filesWithKey k l with
      | [] => none
      | f :: _ => some ⟨k, sortByTE ((filesWithKey k l).map (mkInfo env)), mkTF env f⟩ := by
  rcases group_char env l hinfo htf with ⟨acc, tr, hrun, hlook, _⟩
  intro k
  unfold groupLookup
  rw [hrun]
  exact hlook k

/-- C2 (counterexample): the claim's order-invariance fails on the code.
`wEnvTie` gives both echoes of run `sub-1_task-a` the same echo time; the
stable sort then keeps the (differing) discovery orders, so the two
enumeration orders of the same file set produce different mappings.  The
second conjunct records that the two enumerations are indeed permutations
of one another. -/
theorem c2_tie_counterexample :
    groupLookup wEnvTie [wEcho1, wEcho2] "sub-1_task-a" ≠
      groupLookup wEnvTie [wEcho2, wEcho1] "sub-1_task-a" ∧
    List.Perm [wEcho1, wEcho2] [wEcho2, wEcho1] := by
  constructor
  · decide
  · decide

/-- C2 (amended): when every discovered file's metadata and transform
resolution succeeds, files of one run resolve to one common transform set,
and distinct echo times never tie within a run, `_group_echoes_by_run`
produces the same mapping for every enumeration order; and unconditionally
each group's echo sequence is the stable ascending `echo_time` sort of the
discovery-ordered descriptors (ties keep discovery order). -/
theorem c2_grouping_amended (env : Env) (l₁ l₂ : List EPath)
    (hperm : List.Perm l₁ l₂)
    (hinfo : ∀ f ∈ l₁, (get_echo_file_info env f).isOk = true)
    (htf : ∀ f ∈ l₁, (find_transform_files env f).isOk = true) :
    ((∀ f ∈ l₁, ∀ g ∈ l₁, runKeyOf f = runKeyOf g →
        find_transform_files env f = find_transform_files env g) →
      (∀ f ∈ l₁, ∀ g ∈ l₁, runKeyOf f = runKeyOf g →
        (mkInfo env f).echo_time = (mkInfo env g).echo_time → mkInfo env f = mkInfo env g) →
      ∀ k, groupLookup env l₁ k = groupLookup env l₂ k) ∧
    (∀ k g, groupLookup env l₁ k = some g →
      g.echo_files.Pairwise leTE ∧
      ∀ t : ℚ, g.echo_files.filter (fun x => decide (x.echo_time = t)) =
        ((filesWithKey k l₁).map (mkInfo env)).filter (fun x => decide (x.echo_time = t))) := by
  have hinfo₂ : ∀ f ∈ l₂, (get_echo_file_info env f).isOk = true :=
    fun f hf => hinfo f (hperm.mem_iff.mpr hf)
  have htf₂ : ∀ f ∈ l₂, (find_transform_files env f).isOk = true :=
    fun f hf => htf f (hperm.mem_iff.mpr hf)
  have hc₁ := groupLookup_char env l₁ hinfo htf
  have hc₂ := groupLookup_char env l₂ hinfo₂ htf₂
  constructor
  · intro htfeq hte k
    rw [hc₁ k, hc₂ k]
    have hF : List.Perm (filesWithKey k l₁) (filesWithKey k l₂) := hperm.filter _
    cases hf₁ : filesWithKey k l₁ with
    | nil =>
      cases hf₂ : filesWithKey k l₂ with
      | nil => simp [hf₁, hf₂]
      | cons f₂ r₂ =>
        rw [hf₁, hf₂] at hF
        exact absurd hF.symm.eq_nil (by simp)
    | cons f₁ r₁ =>
      cases hf₂ : filesWithKey k l₂ with
      | nil =>
        rw [hf₁, hf₂] at hF
        exact absurd hF.eq_nil (by simp)
      | cons f₂ r₂ =>
        have hm₁ := mem_filesWithKey.mp (hf₁ ▸ List.mem_cons_self f₁ r₁)
        have hm₂l := mem_filesWithKey.mp (hf₂ ▸ List.mem_cons_self f₂ r₂)
        have hm₂ : f₂ ∈ l₁ := hperm.mem_iff.mpr hm₂l.1
        have htfe : mkTF env f₁ = mkTF env f₂ := by
          have h1 := find_transform_files_ok_eq env f₁ (htf f₁ hm₁.1)
          have h2 := find_transform_files_ok_eq env f₂ (htf f₂ hm₂)
          have h3 := htfeq f₁ hm₁.1 f₂ hm₂ (hm₁.2.trans hm₂l.2.symm)
          rw [h1, h2] at h3
          injection h3
        have hsort : sortByTE ((filesWithKey k l₁).map (mkInfo env))
            = sortByTE ((filesWithKey k l₂).map (mkInfo env)) := by
          apply sorted_perm_eq
          · exact ((sortByTE_perm _).trans (hF.map (mkInfo env))).trans (sortByTE_perm _).symm
          · exact sortByTE_pairwise _
          · exact sortByTE_pairwise _
          · intro a ha b hb hab
            have ha' := (sortByTE_perm _).mem_iff.mp ha
            have hb' := (sortByTE_perm _).mem_iff.mp hb
            rcases List.mem_map.mp ha' with ⟨fa, hfa, rfl⟩
            rcases List.mem_map.mp hb' with ⟨fb, hfb, rfl⟩
            have hfa' := mem_filesWithKey.mp hfa
            have hfb' := mem_filesWithKey.mp hfb
            exact hte fa hfa'.1 fb hfb'.1 (hfa'.2.trans hfb'.2.symm) hab
        rw [hf₁, hf₂] at hsort
        simp [htfe]
        simpa using hsort
  · intro k g hg
    rw [hc₁ k] at hg
    cases hf₁ : filesWithKey k l₁ with
    | nil =>
      rw [hf₁] at hg
      exact absurd hg (by simp)
    | cons f₁ r₁ =>
      rw [hf₁] at hg
      have hg' : (⟨k, sortByTE ((f₁ :: r₁).map (mkInfo env)), mkTF env f₁⟩ : RunGroup) = g :=
        Option.some.inj hg
      rw [← hg']
      exact ⟨sortByTE_pairwise _, fun t => sortByTE_filter _ t⟩

/-- C2 (witness): the amended invariance at a concrete enumeration pair of
the healthy three-echo environment. -/
theorem c2_grouping_amended_witness :
    groupLookup wEnv [wEcho1, wEcho2, wEcho3] "sub-1_task-a" =
      groupLookup wEnv [wEcho3, wEcho1, wEcho2] "sub-1_task-a" :=
  (c2_grouping_amended wEnv [wEcho1, wEcho2, wEcho3] [wEcho3, wEcho1, wEcho2]
    (by decide) (by decide) (by decide)).1 (by decide) (by decide) "sub-1_task-a"

/-- C8: during grouping the Transform Set Resolver is invoked exactly once
per run key (the trace of resolver calls has pairwise-distinct keys and
covers exactly the keys present), each call is triggered by the first echo
of its key in enumeration order, the stored transform set of every group is
the resolution result of its key's first echo, and — when all echoes of a
run resolve to the same transform set — the stored transform set does not
depend on the enumeration order (hence not on which echo triggered the
call). -/
theorem c8_resolver_once_per_key (env : Env) (l : List EPath)
    (hinfo : ∀ f ∈ l, (get_echo_file_info env f).isOk = true)
    (htf : ∀ f ∈ l, (find_transform_files env f).isOk = true) :
    ∃ acc tr, group_echoes_by_run env l = .ok (acc, tr) ∧
      (tr.map runKeyOf).Nodup ∧
      (∀ f ∈ tr, (filesWithKey (runKeyOf f) l).head? = some f) ∧
      (∀ k, (∃ f ∈ l, runKeyOf f = k) ↔ k ∈ tr.map runKeyOf) ∧
      (∀ k g, lookupRG acc k = some g →
        ∀ f₀ r, filesWithKey k l = f₀ :: r →
          find_transform_files env f₀ = .ok g.transforms) ∧
      ((∀ f ∈ l, ∀ g ∈ l, runKeyOf f = runKeyOf g →
          find_transform_files env f = find_transform_files env g) →
        ∀ l₂, List.Perm l l₂ →
          ∀ k, (groupLookup env l k).map RunGroup.transforms
            = (groupLookup env l₂ k).map RunGroup.transforms) := by
  rcases group_char env l hinfo htf with ⟨acc, tr, hrun, hlook, htr⟩
  refine ⟨acc, tr, hrun, ?_, ?_, ?_, ?_, ?_⟩
  · rw [htr]
    exact newKeyFiles_keys_nodup [] l
  · rw [htr]
    exact newKeyFiles_first [] l
  · intro k
    rw [htr]
    exact newKeyFiles_covers [] l k (by simp)
  · intro k g hg f₀ r hf
    rw [hlook k, hf] at hg
    have hg' := Option.some.inj hg
    rw [← hg']
    have hm := mem_filesWithKey.mp (hf ▸ List.mem_cons_self f₀ r)
    exact find_transform_files_ok_eq env f₀ (htf f₀ hm.1)
  · intro htfeq l₂ hperm k
    have hinfo₂ : ∀ f ∈ l₂, (get_echo_file_info env f).isOk = true :=
      fun f hf => hinfo f (hperm.mem_iff.mpr hf)
    have htf₂ : ∀ f ∈ l₂, (find_transform_files env f).isOk = true :=
      fun f hf => htf f (hperm.mem_iff.mpr hf)
    rw [groupLookup_char env l hinfo htf k, groupLookup_char env l₂ hinfo₂ htf₂ k]
    have hF : List.Perm (filesWithKey k l) (filesWithKey k l₂) := hperm.filter _
    cases hf₁ : filesWithKey k l with
    | nil =>
      cases hf₂ : filesWithKey k l₂ with
      | nil => simp
      | cons f₂ r₂ =>
        rw [hf₁, hf₂] at hF
        exact absurd hF.symm.eq_nil (by simp)
    | cons f₁ r₁ =>
      cases hf₂ : filesWithKey k l₂ with
      | nil =>
        rw [hf₁, hf₂] at hF
        exact absurd hF.eq_nil (by simp)
      | cons f₂ r₂ =>
        have hm₁ := mem_filesWithKey.mp (hf₁ ▸ List.mem_cons_self f₁ r₁)
        have hm₂l := mem_filesWithKey.mp (hf₂ ▸ List.mem_cons_self f₂ r₂)
        have hm₂ : f₂ ∈ l := hperm.mem_iff.mpr hm₂l.1
        have htfe : mkTF env f₁ = mkTF env f₂ := by
          have h1 := find_transform_files_ok_eq env f₁ (htf f₁ hm₁.1)
          have h2 := find_transform_files_ok_eq env f₂ (htf f₂ hm₂)
          have h3 := htfeq f₁ hm₁.1 f₂ hm₂ (hm₁.2.trans hm₂l.2.symm)
          rw [h1, h2] at h3
          injection h3
        simp [htfe]

/-- C8 (witness): the conclusion at the concrete healthy environment. -/
theorem c8_resolver_once_witness :
    ∃ acc tr, group_echoes_by_run wEnv [wEcho1, wEcho2, wEcho3] = .ok (acc, tr) ∧
      (tr.map runKeyOf).Nodup ∧
      (∀ f ∈ tr, (filesWithKey (runKeyOf f) [wEcho1, wEcho2, wEcho3]).head? = some f) ∧
      (∀ k, (∃ f ∈ [wEcho1, wEcho2, wEcho3], runKeyOf f = k) ↔ k ∈ tr.map runKeyOf) ∧
      (∀ k g, lookupRG acc k = some g →
        ∀ f₀ r, filesWithKey k [wEcho1, wEcho2, wEcho3] = f₀ :: r →
          find_transform_files wEnv f₀ = .ok g.transforms) ∧
      ((∀ f ∈ [wEcho1, wEcho2, wEcho3], ∀ g ∈ [wEcho1, wEcho2, wEcho3],
          runKeyOf f = runKeyOf g →
          find_transform_files wEnv f = find_transform_files wEnv g) →
        ∀ l₂, List.Perm [wEcho1, wEcho2, wEcho3] l₂ →
          ∀ k, (groupLookup wEnv [wEcho1, wEcho2, wEcho3] k).map RunGroup.transforms
            = (groupLookup wEnv l₂ k).map RunGroup.transforms) :=
  c8_resolver_once_per_key wEnv [wEcho1, wEcho2, wEcho3] (by decide) (by decide)

theorem fm_congr {α β : Type} (f g : α → Option β) :
    ∀ l : List α, (∀ a ∈ l, f a = g a) → l.filterMap f = l.filterMap g := by
  intro l
  induction l with
  | nil => intro _; rfl
  | cons a t ih =>
    intro h
    rw [List.filterMap_cons, List.filterMap_cons, h a (List.mem_cons_self a t),
      ih (fun x hx => h x (List.mem_cons.mpr (Or.inr hx)))]

theorem find_startsWith_ne_empty {l : List String} {p s : String}
    (hp : p.data ≠ []) (h : l.find? (fun x => pyStartsWith x p) = some s) :
    ¬ s = "" := by
  have hps := List.find?_some h
  intro hs
  subst hs
  unfold pyStartsWith at hps
  cases hd : p.data with
  | nil => exact hp hd
  | cons c cs =>
    rw [hd] at hps
    have hempty : ("" : String).data = [] := rfl
    rw [hempty] at hps
    simp [List.isPrefixOf] at hps

/-- C6: `build_key` splits on `_`, takes the first component matching each
of the prefixes `sub-`, `ses-`, `task-`, `run-`, and joins the present ones
with `_` in that fixed order, omitting absent components without any
placeholder (the source equals the claim-worded construction); in
particular `sub-01_task-rest_run-1_echo-1_desc-preproc_bold.nii.gz` yields
`sub-01_task-rest_run-1`. -/
theorem c6_build_key :
    (∀ name : String,
      create_run_key (parse_filename_components name) = build_key_spec name) ∧
    create_run_key (parse_filename_components
      "sub-01_task-rest_run-1_echo-1_desc-preproc_bold.nii.gz")
      = "sub-01_task-rest_run-1" := by
  constructor
  · intro name
    show String.intercalate "_"
        (List.filterMap
          (fun o => match o with
            | some s => if s = "" then none else some s
            | none => none)
          (List.map (fun p => (pysplit name "_").find? (fun c => pyStartsWith c p))
            ["sub-", "ses-", "task-", "run-"]))
      = String.intercalate "_"
          (List.filterMap (fun p => (pysplit name "_").find? (fun c => pyStartsWith c p))
            ["sub-", "ses-", "task-", "run-"])
    rw [List.filterMap_map]
    congr 1
    apply fm_congr
    intro p hp
    simp only [Function.comp]
    cases h : (pysplit name "_").find? (fun c => pyStartsWith c p) with
    | none => rfl
    | some s =>
      have hpne : p.data ≠ [] := by
        simp only [List.mem_cons, List.not_mem_nil, or_false] at hp
        rcases hp with rfl | rfl | rfl | rfl <;> decide
      simp [find_startsWith_ne_empty hpne h]
  · decide

/-- C7: the Metadata Resolver derives the sidecar path deterministically
from the echo file path (same directory, stem with the `.json` descriptor
extension), fails with `MissingSidecar` when the sidecar does not exist,
fails with `MissingTimingValue` when the timing field is absent or null,
and otherwise returns the descriptor carrying the file path, timing value
and sidecar path. -/
theorem c7_metadata_resolver (env : Env) (f : EPath) :
    json_path_of f = ⟨f.dir, dropSuffix (dropSuffix f.name) ++ ".json"⟩ ∧
    (env.sidecar_exists (json_path_of f) = false →
      get_echo_file_info env f = .error (.MissingSidecar (json_path_of f))) ∧
    (env.sidecar_exists (json_path_of f) = true →
      env.sidecar_echo_time (json_path_of f) = none →
      get_echo_file_info env f = .error (.MissingTimingValue (json_path_of f))) ∧
    (∀ t : ℚ, env.sidecar_exists (json_path_of f) = true →
      env.sidecar_echo_time (json_path_of f) = some t →
      get_echo_file_info env f = .ok ⟨f, t, json_path_of f⟩) := by
  refine ⟨rfl, ?_, ?_, ?_⟩
  · intro h
    unfold get_echo_file_info
    simp [h]
  · intro h ht
    unfold get_echo_file_info
    simp [h, ht]
  · intro t h ht
    unfold get_echo_file_info
    simp [h, ht]

/-- C7 (witness): the three resolver outcomes at concrete environments. -/
theorem c7_metadata_resolver_witness :
    get_echo_file_info wEnvNoSidecar wEcho1
      = .error (.MissingSidecar (json_path_of wEcho1)) ∧
    get_echo_file_info wEnvNoTime wEcho1
      = .error (.MissingTimingValue (json_path_of wEcho1)) ∧
    get_echo_file_info wEnv wEcho1 = .ok ⟨wEcho1, 1, json_path_of wEcho1⟩ :=
  ⟨(c7_metadata_resolver wEnvNoSidecar wEcho1).2.1 (by decide),
    (c7_metadata_resolver wEnvNoTime wEcho1).2.2.1 (by decide) (by decide),
    (c7_metadata_resolver wEnv wEcho1).2.2.2 1 (by decide) (by decide)⟩

/-! ### Filesystem-state lemmas -/

theorem mem_addFile {fs : FS} {p q : EPath} : q ∈ addFile fs p ↔ q ∈ fs ∨ q = p := by
  unfold addFile
  by_cases h : p ∈ fs
  · rw [if_pos h]
    constructor
    · exact Or.inl
    · rintro (hq | rfl)
      · exact hq
      · exact h
  · rw [if_neg h]
    simp

theorem mem_addFiles {fs : FS} {ps : List EPath} {q : EPath} :
    q ∈ addFiles fs ps ↔ q ∈ fs ∨ q ∈ ps := by
  induction ps generalizing fs with
  | nil => simp [addFiles]
  | cons a t ih =>
    rw [show addFiles fs (a :: t) = addFiles (addFile fs a) t from rfl, ih, mem_addFile]
    constructor
    · rintro ((hq | rfl) | hq)
      · exact Or.inl hq
      · exact Or.inr (List.mem_cons_self q t)
      · exact Or.inr (List.mem_cons.mpr (Or.inr hq))
    · rintro (hq | hq)
      · exact Or.inl (Or.inl hq)
      · rcases List.mem_cons.mp hq with rfl | hq
        · exact Or.inl (Or.inr rfl)
        · exact Or.inr hq

theorem mem_removeListed {fs ps : List EPath} {q : EPath} :
    q ∈ removeListed fs ps ↔ q ∈ fs ∧ q ∉ ps := by
  simp [removeListed]

/-! ### The trimming loop -/

theorem trimLoop_spec (env : Env) (outDir : List String) :
    ∀ (echoes : List EchoFileInfo) (i : Nat) (fs : FS),
      (∀ p ∈ fs, p ∈ (trimLoop env outDir echoes i fs).fs) ∧
      (∀ p ∈ (trimLoop env outDir echoes i fs).fs,
        p ∈ fs ∨ ∃ j, j < echoes.length ∧ p = tempEPath outDir (i + j + 1)) ∧
      (∀ t ∈ (trimLoop env outDir echoes i fs).temps,
        ∃ j, j < echoes.length ∧ t = tempEPath outDir (i + j + 1)) := by
  intro echoes
  induction echoes with
  | nil =>
    intro i fs
    refine ⟨fun p hp => hp, fun p hp => Or.inl hp, ?_⟩
    intro t ht
    simp [trimLoop] at ht
  | cons e rest ih =>
    intro i fs
    cases hl : env.load_raises e.file_path with
    | true =>
      unfold trimLoop
      rw [if_pos hl]
      refine ⟨fun p hp => hp, fun p hp => Or.inl hp, ?_⟩
      intro t ht
      simp at ht
    | false =>
      obtain ⟨ih1, ih2, ih3⟩ := ih (i + 1) (addFile fs (tempEPath outDir (i + 1)))
      have hshape :
          trimLoop env outDir (e :: rest) i fs =
            ⟨(trimLoop env outDir rest (i + 1)
                (addFile fs (tempEPath outDir (i + 1)))).fs,
              tempEPath outDir (i + 1) ::
                (trimLoop env outDir rest (i + 1)
                  (addFile fs (tempEPath outDir (i + 1)))).temps,
              (trimLoop env outDir rest (i + 1)
                (addFile fs (tempEPath outDir (i + 1)))).result⟩ := by
        show (if env.load_raises e.file_path = true then
            (⟨fs, [], .error (.LoadError e.file_path)⟩ : TrimOut)
          else
            ⟨(trimLoop env outDir rest (i + 1)
                (addFile fs (tempEPath outDir (i + 1)))).fs,
              tempEPath outDir (i + 1) ::
                (trimLoop env outDir rest (i + 1)
                  (addFile fs (tempEPath outDir (i + 1)))).temps,
              (trimLoop env outDir rest (i + 1)
                (addFile fs (tempEPath outDir (i + 1)))).result⟩) = _
        rw [if_neg (by simp [hl])]
      rw [hshape]
      refine ⟨?_, ?_, ?_⟩
      · intro p hp
        exact ih1 p (mem_addFile.mpr (Or.inl hp))
      · intro p hp
        rcases ih2 p hp with hp2 | ⟨j, hj, rfl⟩
        · rcases mem_addFile.mp hp2 with hp3 | rfl
          · exact Or.inl hp3
          · exact Or.inr ⟨0, by simp, by simp⟩
        · exact Or.inr ⟨j + 1, by simpa using Nat.succ_lt_succ hj, by
            have : i + 1 + j + 1 = i + (j + 1) + 1 := by omega
            rw [this]⟩
      · intro t ht
        rcases List.mem_cons.mp ht with rfl | ht
        · exact ⟨0, by simp, by simp⟩
        · rcases ih3 t ht with ⟨j, hj, rfl⟩
          exact ⟨j + 1, by simpa using Nat.succ_lt_succ hj, by
            have : i + 1 + j + 1 = i + (j + 1) + 1 := by omega
            rw [this]⟩

theorem trimLoop_error_shape (env : Env) (outDir : List String) :
    ∀ (echoes : List EchoFileInfo) (i : Nat) (fs : FS) (e : TedErr),
      (trimLoop env outDir echoes i fs).result = .error e → ∃ p, e = .LoadError p := by
  intro echoes
  induction echoes with
  | nil =>
    intro i fs e he
    simp [trimLoop] at he
  | cons a rest ih =>
    intro i fs e he
    cases hl : env.load_raises a.file_path with
    | true =>
      unfold trimLoop at he
      rw [if_pos hl] at he
      exact ⟨a.file_path, (Except.error.inj he).symm⟩
    | false =>
      unfold trimLoop at he
      rw [if_neg (by simp [hl])] at he
      exact ih (i + 1) _ e he

/-! ### Branch analysis of the combination stage -/

theorem run_tedana_skip (cfg : Config) (env : Env) (rg : RunGroup) (fs : FS)
    (h : optcomPathOf cfg rg.key ∈ fs) :
    run_tedana cfg env rg fs = ⟨fs, [], .ok (optcomPathOf cfg rg.key)⟩ := by
  simp only [run_tedana]
  rw [if_pos h]

theorem run_tedana_ok_inv (cfg : Config) (env : Env) (rg : RunGroup) (fs fs' : FS)
    (ctr : List CombineCall) (p : EPath)
    (h : run_tedana cfg env rg fs = ⟨fs', ctr, .ok p⟩) :
    p = optcomPathOf cfg rg.key ∧ p ∈ fs' := by
  simp only [run_tedana] at h
  split at h
  · rename_i h0
    injection h with h1 h2 h3
    injection h3 with h4
    subst h1
    subst h4
    exact ⟨rfl, h0⟩
  · split at h
    · split at h
      · injection h with h1 h2 h3
        simp at h3
      · split at h
        · injection h with h1 h2 h3
          simp at h3
        · split at h
          · rename_i hmem
            injection h with h1 h2 h3
            injection h3 with h4
            subst h1
            subst h4
            exact ⟨rfl, hmem⟩
          · injection h with h1 h2 h3
            simp at h3
    · split at h
      · injection h with h1 h2 h3
        simp at h3
      · split at h
        · rename_i hmem
          injection h with h1 h2 h3
          injection h3 with h4
          subst h1
          subst h4
          exact ⟨rfl, hmem⟩
        · injection h with h1 h2 h3
          simp at h3

theorem run_tedana_trim_fs (cfg : Config) (env : Env) (rg : RunGroup) (fs : FS)
    (h0 : optcomPathOf cfg rg.key ∉ fs) (ht : (0:Int) < cfg.trim_by) :
    ∃ written,
      (run_tedana cfg env rg fs).fs =
        removeListed
          (addFiles (trimLoop env (optcomDirOf cfg rg.key) rg.echo_files 0 fs).fs written)
          (trimLoop env (optcomDirOf cfg rg.key) rg.echo_files 0 fs).temps := by
  simp only [run_tedana]
  rw [if_neg h0, if_pos ht]
  split
  · exact ⟨[], rfl⟩
  · split
    · exact ⟨[], rfl⟩
    · rename_i written heq
      split
      · exact ⟨written, rfl⟩
      · exact ⟨written, rfl⟩

theorem run_tedana_notrim_fs (cfg : Config) (env : Env) (rg : RunGroup) (fs : FS)
    (hno : ¬ (0:Int) < cfg.trim_by) :
    ∃ written, (run_tedana cfg env rg fs).fs = addFiles fs written := by
  simp only [run_tedana]
  by_cases h0 : optcomPathOf cfg rg.key ∈ fs
  · rw [if_pos h0]
    exact ⟨[], rfl⟩
  · rw [if_neg h0, if_neg hno]
    split
    · exact ⟨[], rfl⟩
    · rename_i written heq
      split
      · exact ⟨written, rfl⟩
      · exact ⟨written, rfl⟩

/-- C5: the combination stage is idempotent — with the declared output
already present it performs no filesystem work, no external combination
call, and returns that path; and after any successful invocation the
returned path is the deterministic output path and a second invocation on
the resulting state short-circuits identically. -/
theorem c5_combination_idempotent (cfg : Config) (env : Env) (rg : RunGroup) (fs : FS) :
    (optcomPathOf cfg rg.key ∈ fs →
      run_tedana cfg env rg fs = ⟨fs, [], .ok (optcomPathOf cfg rg.key)⟩) ∧
    (∀ fs' ctr p, run_tedana cfg env rg fs = ⟨fs', ctr, .ok p⟩ →
      p = optcomPathOf cfg rg.key ∧
      run_tedana cfg env rg fs' = ⟨fs', [], .ok p⟩) := by
  constructor
  · intro h
    exact run_tedana_skip cfg env rg fs h
  · intro fs' ctr p hrun
    obtain ⟨hp, hmem⟩ := run_tedana_ok_inv cfg env rg fs fs' ctr p hrun
    subst hp
    exact ⟨rfl, run_tedana_skip cfg env rg fs' hmem⟩

/-- C5 (witness): a fresh untrimmed run followed by an immediate re-run on
the resulting state. -/
theorem c5_combination_idempotent_witness :
    run_tedana wCfg wEnv wRG (run_tedana wCfg wEnv wRG []).fs =
      ⟨(run_tedana wCfg wEnv wRG []).fs, [], .ok (optcomPathOf wCfg wRG.key)⟩ := by
  have h := (c5_combination_idempotent wCfg wEnv wRG []).2
    (run_tedana wCfg wEnv wRG []).fs (run_tedana wCfg wEnv wRG []).combine_calls
    (optcomPathOf wCfg wRG.key) (by decide)
  exact h.2

/-- C9: on every execution path the only paths `_run_tedana` removes from
the filesystem are that run's own temporary trimmed artifacts, and original
per-echo input artifacts (which are never named like the run's temporaries)
always survive. -/
theorem c9_no_input_deletion (cfg : Config) (env : Env) (rg : RunGroup) (fs : FS) :
    (∀ q ∈ fs, q ∉ (run_tedana cfg env rg fs).fs →
      ∃ i, i < rg.echo_files.length ∧ q = tempEPath (optcomDirOf cfg rg.key) (i + 1)) ∧
    (∀ e ∈ rg.echo_files, e.file_path ∈ fs →
      (∀ i, i < rg.echo_files.length →
        e.file_path ≠ tempEPath (optcomDirOf cfg rg.key) (i + 1)) →
      e.file_path ∈ (run_tedana cfg env rg fs).fs) := by
  have main : ∀ q ∈ fs, q ∉ (run_tedana cfg env rg fs).fs →
      ∃ i, i < rg.echo_files.length ∧ q = tempEPath (optcomDirOf cfg rg.key) (i + 1) := by
    intro q hq hnot
    by_cases ht : (0:Int) < cfg.trim_by
    · by_cases h0 : optcomPathOf cfg rg.key ∈ fs
      · rw [run_tedana_skip cfg env rg fs h0] at hnot
        exact absurd hq hnot
      · obtain ⟨written, hw⟩ := run_tedana_trim_fs cfg env rg fs h0 ht
        rw [hw] at hnot
        obtain ⟨sp1, sp2, sp3⟩ :=
          trimLoop_spec env (optcomDirOf cfg rg.key) rg.echo_files 0 fs
        have hq1 : q ∈ addFiles
            (trimLoop env (optcomDirOf cfg rg.key) rg.echo_files 0 fs).fs written :=
          mem_addFiles.mpr (Or.inl (sp1 q hq))
        have hq2 : q ∈ (trimLoop env (optcomDirOf cfg rg.key) rg.echo_files 0 fs).temps := by
          by_contra hq3
          exact hnot (mem_removeListed.mpr ⟨hq1, hq3⟩)
        obtain ⟨j, hj, hje⟩ := sp3 q hq2
        exact ⟨j, hj, by simpa using hje⟩
    · obtain ⟨written, hw⟩ := run_tedana_notrim_fs cfg env rg fs ht
      rw [hw] at hnot
      exact absurd (mem_addFiles.mpr (Or.inl hq)) hnot
  refine ⟨main, ?_⟩
  intro e he hfs hneq
  by_contra hnot
  obtain ⟨i, hi, heq⟩ := main e.file_path hfs hnot
  exact hneq i hi heq

/-- C9 (witness): under a trimmed run whose combination call raises, the
original input artifacts survive the cleanup. -/
theorem c9_no_input_deletion_witness :
    (mkInfo wEnv wEcho1).file_path ∈
      (run_tedana wCfgTrim wEnvCombineFails wRG [(mkInfo wEnv wEcho1).file_path]).fs :=
  (c9_no_input_deletion wCfgTrim wEnvCombineFails wRG
      [(mkInfo wEnv wEcho1).file_path]).2
    (mkInfo wEnv wEcho1) (by decide) (by decide) (by decide)

theorem run_tedana_trim_load_eq (cfg : Config) (env : Env) (rg : RunGroup) (fs : FS)
    (ht : (0:Int) < cfg.trim_by) (h0 : optcomPathOf cfg rg.key ∉ fs) (er : TedErr)
    (herr : (trimLoop env (optcomDirOf cfg rg.key) rg.echo_files 0 fs).result = .error er) :
    run_tedana cfg env rg fs =
      ⟨removeListed (trimLoop env (optcomDirOf cfg rg.key) rg.echo_files 0 fs).fs
          (trimLoop env (optcomDirOf cfg rg.key) rg.echo_files 0 fs).temps,
        [], .error er⟩ := by
  simp only [run_tedana]
  rw [if_neg h0, if_pos ht, herr]

theorem run_tedana_trim_combfail_eq (cfg : Config) (env : Env) (rg : RunGroup) (fs : FS)
    (ht : (0:Int) < cfg.trim_by) (h0 : optcomPathOf cfg rg.key ∉ fs) (c : Nat)
    (hok : (trimLoop env (optcomDirOf cfg rg.key) rg.echo_files 0 fs).result = .ok ())
    (hcomb : env.combine (trimLoop env (optcomDirOf cfg rg.key) rg.echo_files 0 fs).temps
        (rg.echo_files.map (fun e => e.echo_time)) (optcomDirOf cfg rg.key) = .error c) :
    run_tedana cfg env rg fs =
      ⟨removeListed (trimLoop env (optcomDirOf cfg rg.key) rg.echo_files 0 fs).fs
          (trimLoop env (optcomDirOf cfg rg.key) rg.echo_files 0 fs).temps,
        [⟨(trimLoop env (optcomDirOf cfg rg.key) rg.echo_files 0 fs).temps,
          rg.echo_files.map (fun e => e.echo_time), optcomDirOf cfg rg.key⟩],
        .error (.ExternalError c)⟩ := by
  simp only [run_tedana]
  rw [if_neg h0, if_pos ht, hok, hcomb]

/-- C4: for a trimmed run, if the external combination capability raises, or
loading raises during trimming, then every temporary trimmed artifact
created for the run is removed before the error propagates, and the
original error (the external token, resp. the load error) is still
raised — cleanup never suppresses it. -/
theorem c4_trim_cleanup (cfg : Config) (env : Env) (rg : RunGroup) (fs : FS)
    (ht : (0:Int) < cfg.trim_by) (h0 : optcomPathOf cfg rg.key ∉ fs) :
    (∀ c : Nat,
      (trimLoop env (optcomDirOf cfg rg.key) rg.echo_files 0 fs).result = .ok () →
      env.combine (trimLoop env (optcomDirOf cfg rg.key) rg.echo_files 0 fs).temps
          (rg.echo_files.map (fun e => e.echo_time)) (optcomDirOf cfg rg.key)
        = .error c →
      run_tedana cfg env rg fs =
        ⟨removeListed (trimLoop env (optcomDirOf cfg rg.key) rg.echo_files 0 fs).fs
            (trimLoop env (optcomDirOf cfg rg.key) rg.echo_files 0 fs).temps,
          [⟨(trimLoop env (optcomDirOf cfg rg.key) rg.echo_files 0 fs).temps,
            rg.echo_files.map (fun e => e.echo_time), optcomDirOf cfg rg.key⟩],
          .error (.ExternalError c)⟩ ∧
      ∀ t ∈ (trimLoop env (optcomDirOf cfg rg.key) rg.echo_files 0 fs).temps,
        t ∉ (run_tedana cfg env rg fs).fs) ∧
    (∀ er : TedErr,
      (trimLoop env (optcomDirOf cfg rg.key) rg.echo_files 0 fs).result = .error er →
      run_tedana cfg env rg fs =
        ⟨removeListed (trimLoop env (optcomDirOf cfg rg.key) rg.echo_files 0 fs).fs
            (trimLoop env (optcomDirOf cfg rg.key) rg.echo_files 0 fs).temps,
          [], .error er⟩ ∧
      ∀ t ∈ (trimLoop env (optcomDirOf cfg rg.key) rg.echo_files 0 fs).temps,
        t ∉ (run_tedana cfg env rg fs).fs) := by
  constructor
  · intro c hok hcomb
    have hrun := run_tedana_trim_combfail_eq cfg env rg fs ht h0 c hok hcomb
    refine ⟨hrun, ?_⟩
    intro t htm
    rw [hrun]
    exact fun hmem => (mem_removeListed.mp hmem).2 htm
  · intro er herr
    have hrun := run_tedana_trim_load_eq cfg env rg fs ht h0 er herr
    refine ⟨hrun, ?_⟩
    intro t htm
    rw [hrun]
    exact fun hmem => (mem_removeListed.mp hmem).2 htm

/-- C4 (witness): a trimmed run whose combination call raises cleans up its
temporaries and re-raises the external error. -/
theorem c4_trim_cleanup_witness :
    run_tedana wCfgTrim wEnvCombineFails wRG [] =
      ⟨removeListed
          (trimLoop wEnvCombineFails (optcomDirOf wCfgTrim wRG.key) wRG.echo_files 0 []).fs
          (trimLoop wEnvCombineFails (optcomDirOf wCfgTrim wRG.key) wRG.echo_files 0 []).temps,
        [⟨(trimLoop wEnvCombineFails (optcomDirOf wCfgTrim wRG.key) wRG.echo_files 0 []).temps,
          wRG.echo_files.map (fun e => e.echo_time), optcomDirOf wCfgTrim wRG.key⟩],
        .error (.ExternalError 7)⟩ ∧
    ∀ t ∈ (trimLoop wEnvCombineFails (optcomDirOf wCfgTrim wRG.key) wRG.echo_files 0 []).temps,
      t ∉ (run_tedana wCfgTrim wEnvCombineFails wRG []).fs :=
  (c4_trim_cleanup wCfgTrim wEnvCombineFails wRG [] (by decide) (by decide)).1
    7 (by decide) (by decide)

/-- C10: a `None` trim count is coerced to `0` at construction; any
non-positive trim count makes `_run_tedana` behave exactly as with trim `0`
(the untrimmed branch); the external combination capability is then invoked
directly on the original per-echo artifacts; and every file the stage
creates was written by the external combination call (no temporary trimmed
artifacts). -/
theorem c10_nonpositive_trim (cfg : Config) (env : Env) (rg : RunGroup) (fs : FS) :
    (∀ (fm out : List String) (sid : String) (img : Option String),
      (TedanaProcessor_init fm out sid none img).trim_by = 0) ∧
    (cfg.trim_by ≤ 0 →
      run_tedana cfg env rg fs = run_tedana { cfg with trim_by := 0 } env rg fs) ∧
    (cfg.trim_by ≤ 0 → optcomPathOf cfg rg.key ∉ fs →
      (run_tedana cfg env rg fs).combine_calls =
        [⟨rg.echo_files.map (fun e => e.file_path),
          rg.echo_files.map (fun e => e.echo_time), optcomDirOf cfg rg.key⟩]) ∧
    (cfg.trim_by ≤ 0 → ∀ q, q ∈ (run_tedana cfg env rg fs).fs → q ∉ fs →
      ∃ w, env.combine (rg.echo_files.map (fun e => e.file_path))
          (rg.echo_files.map (fun e => e.echo_time)) (optcomDirOf cfg rg.key)
        = .ok w ∧ q ∈ w) := by
  refine ⟨fun fm out sid img => rfl, ?_, ?_, ?_⟩
  · intro hle
    obtain ⟨a, b, c, d, e⟩ := cfg
    simp only [Config.trim_by] at hle
    simp only [run_tedana, optcomPathOf, optcomDirOf]
    rw [if_neg (not_lt.mpr hle), if_neg (lt_irrefl (0:Int))]
  · intro hle h0
    simp only [run_tedana]
    rw [if_neg h0, if_neg (not_lt.mpr hle)]
    split
    · rfl
    · split
      · rfl
      · rfl
  · intro hle q hq hnq
    by_cases h0 : optcomPathOf cfg rg.key ∈ fs
    · rw [run_tedana_skip cfg env rg fs h0] at hq
      exact absurd hq hnq
    · cases hcomb : env.combine (rg.echo_files.map (fun e => e.file_path))
          (rg.echo_files.map (fun e => e.echo_time)) (optcomDirOf cfg rg.key) with
      | error c =>
        have hr : run_tedana cfg env rg fs =
            ⟨fs, [⟨rg.echo_files.map (fun e => e.file_path),
              rg.echo_files.map (fun e => e.echo_time), optcomDirOf cfg rg.key⟩],
              .error (.ExternalError c)⟩ := by
          simp only [run_tedana]
          rw [if_neg h0, if_neg (not_lt.mpr hle), hcomb]
        rw [hr] at hq
        exact absurd hq hnq
      | ok written =>
        have hr : run_tedana cfg env rg fs =
            if optcomPathOf cfg rg.key ∈ addFiles fs written then
              ⟨addFiles fs written, [⟨rg.echo_files.map (fun e => e.file_path),
                rg.echo_files.map (fun e => e.echo_time), optcomDirOf cfg rg.key⟩],
                .ok (optcomPathOf cfg rg.key)⟩
            else
              ⟨addFiles fs written, [⟨rg.echo_files.map (fun e => e.file_path),
                rg.echo_files.map (fun e => e.echo_time), optcomDirOf cfg rg.key⟩],
                .error (.CombinationOutputMissing (optcomPathOf cfg rg.key))⟩ := by
          simp only [run_tedana]
          rw [if_neg h0, if_neg (not_lt.mpr hle), hcomb]
        refine ⟨written, rfl, ?_⟩
        rw [hr] at hq
        by_cases hm : optcomPathOf cfg rg.key ∈ addFiles fs written
        · rw [if_pos hm] at hq
          rcases mem_addFiles.mp hq with h | h
          · exact absurd h hnq
          · exact h
        · rw [if_neg hm] at hq
          rcases mem_addFiles.mp hq with h | h
          · exact absurd h hnq
          · exact h

/-- C10 (witness): with trim `0` the combination call receives exactly the
original per-echo artifacts. -/
theorem c10_nonpositive_trim_witness :
    (run_tedana wCfg wEnv wRG []).combine_calls =
      [⟨wRG.echo_files.map (fun e => e.file_path),
        wRG.echo_files.map (fun e => e.echo_time), optcomDirOf wCfg wRG.key⟩] :=
  (c10_nonpositive_trim wCfg wEnv wRG []).2.2.1 (by decide) (by decide)

/-! ### Error shapes of the processing loop -/

theorem run_tedana_ne_count (cfg : Config) (env : Env) (rg : RunGroup) (fs : FS)
    (k : String) (c : Nat) :
    (run_tedana cfg env rg fs).result ≠ .error (.EchoCountMismatch k c) := by
  intro h
  by_cases h0 : optcomPathOf cfg rg.key ∈ fs
  · rw [run_tedana_skip cfg env rg fs h0] at h
    simp at h
  · by_cases ht : (0:Int) < cfg.trim_by
    · cases hres : (trimLoop env (optcomDirOf cfg rg.key) rg.echo_files 0 fs).result with
      | error er =>
        rw [run_tedana_trim_load_eq cfg env rg fs ht h0 er hres] at h
        obtain ⟨p, hp⟩ := trimLoop_error_shape env _ rg.echo_files 0 fs er hres
        rw [hp] at h
        simp at h
      | ok u =>
        cases u
        cases hcomb : env.combine
            (trimLoop env (optcomDirOf cfg rg.key) rg.echo_files 0 fs).temps
            (rg.echo_files.map (fun e => e.echo_time)) (optcomDirOf cfg rg.key) with
        | error c2 =>
          rw [run_tedana_trim_combfail_eq cfg env rg fs ht h0 c2 hres hcomb] at h
          simp at h
        | ok written =>
          have hr : run_tedana cfg env rg fs =
              (let fs₂ := removeListed
                  (addFiles (trimLoop env (optcomDirOf cfg rg.key) rg.echo_files 0 fs).fs
                    written)
                  (trimLoop env (optcomDirOf cfg rg.key) rg.echo_files 0 fs).temps
               if optcomPathOf cfg rg.key ∈ fs₂ then
                ⟨fs₂, [⟨(trimLoop env (optcomDirOf cfg rg.key) rg.echo_files 0 fs).temps,
                  rg.echo_files.map (fun e => e.echo_time), optcomDirOf cfg rg.key⟩],
                  .ok (optcomPathOf cfg rg.key)⟩
               else
                ⟨fs₂, [⟨(trimLoop env (optcomDirOf cfg rg.key) rg.echo_files 0 fs).temps,
                  rg.echo_files.map (fun e => e.echo_time), optcomDirOf cfg rg.key⟩],
                  .error (.CombinationOutputMissing (optcomPathOf cfg rg.key))⟩) := by
            simp only [run_tedana]
            rw [if_neg h0, if_pos ht, hres, hcomb]
          rw [hr] at h
          simp only [] at h
          split at h <;> simp at h
    · cases hcomb : env.combine (rg.echo_files.map (fun e => e.file_path))
          (rg.echo_files.map (fun e => e.echo_time)) (optcomDirOf cfg rg.key) with
      | error c2 =>
        have hr : run_tedana cfg env rg fs =
            ⟨fs, [⟨rg.echo_files.map (fun e => e.file_path),
              rg.echo_files.map (fun e => e.echo_time), optcomDirOf cfg rg.key⟩],
              .error (.ExternalError c2)⟩ := by
          simp only [run_tedana]
          rw [if_neg h0, if_neg ht, hcomb]
        rw [hr] at h
        simp at h
      | ok written =>
        have hr : run_tedana cfg env rg fs =
            (if optcomPathOf cfg rg.key ∈ addFiles fs written then
              ⟨addFiles fs written, [⟨rg.echo_files.map (fun e => e.file_path),
                rg.echo_files.map (fun e => e.echo_time), optcomDirOf cfg rg.key⟩],
                .ok (optcomPathOf cfg rg.key)⟩
            else
              ⟨addFiles fs written, [⟨rg.echo_files.map (fun e => e.file_path),
                rg.echo_files.map (fun e => e.echo_time), optcomDirOf cfg rg.key⟩],
                .error (.CombinationOutputMissing (optcomPathOf cfg rg.key))⟩) := by
          simp only [run_tedana]
          rw [if_neg h0, if_neg ht, hcomb]
        rw [hr] at h
        split at h <;> simp at h

theorem apply_transforms_ne_count (env : Env) (input output : EPath)
    (transforms : List EPath) (reference : EPath) (fs : FS) (k : String) (c : Nat) :
    (apply_transforms env input output transforms reference fs).result ≠
      .error (.EchoCountMismatch k c) := by
  intro h
  simp only [apply_transforms] at h
  split at h
  · simp at h
  · split at h
    · simp at h
    · split at h <;> simp at h

theorem pto_ne_count (cfg : Config) (env : Env) (optcom : EPath) (tf : TransformFiles)
    (run_key : String) (fs : FS) (k : String) (c : Nat) :
    (process_tedana_outputs cfg env optcom tf run_key fs).result ≠
      .error (.EchoCountMismatch k c) := by
  intro h
  simp only [process_tedana_outputs] at h
  split at h
  · rename_i e heq
    simp at h
    subst h
    exact apply_transforms_ne_count env optcom (t1wOutputOf cfg run_key)
      [tf.bold_to_t1w] tf.t1w_reference fs k c heq
  · rename_i t1w heq1
    split at h
    · rename_i e heq2
      simp at h
      subst h
      exact apply_transforms_ne_count env optcom (mniOutputOf cfg run_key)
        [tf.t1w_to_mni, tf.bold_to_t1w] tf.mni_reference
        (apply_transforms env optcom (t1wOutputOf cfg run_key)
          [tf.bold_to_t1w] tf.t1w_reference fs).fs k c heq2
    · simp at h

theorem processLoop_ne_count (cfg : Config) (env : Env) :
    ∀ (groups : List (String × RunGroup)) (fs : FS) (k : String) (c : Nat),
      (processLoop cfg env groups fs).2.2.2 ≠ .error (.EchoCountMismatch k c) := by
  intro groups
  induction groups with
  | nil =>
    intro fs k c h
    simp [processLoop] at h
  | cons p rest ih =>
    intro fs k c h
    rcases p with ⟨run_key, rg⟩
    simp only [processLoop] at h
    split at h
    · rename_i e heq
      simp at h
      subst h
      exact run_tedana_ne_count cfg env rg fs k c heq
    · rename_i optcom heq
      split at h
      · rename_i e heq2
        simp at h
        subst h
        exact pto_ne_count cfg env optcom rg.transforms run_key
          (run_tedana cfg env rg fs).fs k c heq2
      · rename_i t1w mni heq2
        split at h
        · rename_i e heq3
          simp at h
          subst h
          exact ih _ k c heq3
        · simp at h

theorem checkEchoCounts_none_iff (groups : List (String × RunGroup)) :
    checkEchoCounts groups = none ↔ ∀ p ∈ groups, p.2.echo_files.length = 3 := by
  induction groups with
  | nil => simp [checkEchoCounts]
  | cons p rest ih =>
    rcases p with ⟨k, g⟩
    by_cases h : g.echo_files.length ≠ 3
    · simp [checkEchoCounts, h]
    · have h3 : g.echo_files.length = 3 := not_ne_iff.mp h
      simp [checkEchoCounts, h, h3, ih]

theorem checkEchoCounts_some (groups : List (String × RunGroup)) (k : String) (c : Nat) :
    checkEchoCounts groups = some (k, c) →
      (∃ g, (k, g) ∈ groups ∧ g.echo_files.length = c) ∧ c ≠ 3 := by
  induction groups with
  | nil =>
    intro h
    simp [checkEchoCounts] at h
  | cons p rest ih =>
    intro h
    rcases p with ⟨k0, g0⟩
    by_cases hlen : g0.echo_files.length ≠ 3
    · rw [show checkEchoCounts ((k0, g0) :: rest) = some (k0, g0.echo_files.length) from by
        simp [checkEchoCounts, hlen]] at h
      have hpair := Option.some.inj h
      have hk : k0 = k := congrArg Prod.fst hpair
      have hc : g0.echo_files.length = c := congrArg Prod.snd hpair
      subst hk
      subst hc
      exact ⟨⟨g0, List.mem_cons_self _ rest, rfl⟩, hlen⟩
    · rw [show checkEchoCounts ((k0, g0) :: rest) = checkEchoCounts rest from by
        simp [checkEchoCounts, hlen]] at h
      obtain ⟨⟨g, hg, hgc⟩, hc3⟩ := ih h
      exact ⟨⟨g, List.mem_cons.mpr (Or.inr hg), hgc⟩, hc3⟩

/-- C3: with an existing fMRIPrep tree, subject directory and successful
grouping, any run group with an echo count other than 3 makes `process`
fail with `EchoCountMismatch` naming an offending run key and its actual
count before any combination or projection call is made (and without
touching the output tree); and when every group has exactly 3 echoes the
validation passes and `process` can never fail with `EchoCountMismatch`. -/
theorem c3_echo_count_validation (cfg : Config) (env : Env) (fs₀ : FS)
    (hfm : env.fmriprep_exists = true) (hsub : env.subject_dir_exists = true)
    (hgr : (group_echoes_by_run env env.echo_glob).isOk = true) :
    ((∃ p ∈ groupsOf env, p.2.echo_files.length ≠ 3) →
      ∃ k c, (process cfg env fs₀).result = .error (.EchoCountMismatch k c) ∧
        (∃ g, (k, g) ∈ groupsOf env ∧ g.echo_files.length = c) ∧ c ≠ 3 ∧
        (process cfg env fs₀).combine_calls = [] ∧
        (process cfg env fs₀).stage_calls = [] ∧
        (process cfg env fs₀).fs = fs₀) ∧
    ((∀ p ∈ groupsOf env, p.2.echo_files.length = 3) →
      checkEchoCounts (groupsOf env) = none ∧
      ∀ k c, (process cfg env fs₀).result ≠ .error (.EchoCountMismatch k c)) := by
  cases hg : group_echoes_by_run env env.echo_glob with
  | error e =>
    rw [hg] at hgr
    simp [Except.isOk, Except.toBool] at hgr
  | ok pr =>
    rcases pr with ⟨groups, rtr⟩
    have hgo : groupsOf env = groups := by
      simp [groupsOf, hg]
    have hproc : process cfg env fs₀ =
        (match checkEchoCounts groups with
        | some (k, c) => ⟨fs₀, rtr, [], [], .error (.EchoCountMismatch k c)⟩
        | none =>
          ⟨(processLoop cfg env groups fs₀).1, rtr,
            (processLoop cfg env groups fs₀).2.1,
            (processLoop cfg env groups fs₀).2.2.1,
            (processLoop cfg env groups fs₀).2.2.2⟩) := by
      simp only [process, find_echo_files, hfm, hsub]
      simp
      rw [hg]
    constructor
    · rintro ⟨p, hp, hlen⟩
      rw [hgo] at hp
      cases hchk : checkEchoCounts groups with
      | none =>
        exact absurd ((checkEchoCounts_none_iff groups).mp hchk p hp) hlen
      | some kc =>
        rcases kc with ⟨k, c⟩
        obtain ⟨⟨g, hgmem, hglen⟩, hc3⟩ := checkEchoCounts_some groups k c hchk
        have hpr : process cfg env fs₀ = ⟨fs₀, rtr, [], [], .error (.EchoCountMismatch k c)⟩ := by
          rw [hproc, hchk]
        exact ⟨k, c, by rw [hpr], ⟨g, by rw [hgo]; exact hgmem, hglen⟩, hc3,
          by rw [hpr], by rw [hpr], by rw [hpr]⟩
    · intro hall
      rw [hgo] at hall
      have hnone : checkEchoCounts groups = none := (checkEchoCounts_none_iff groups).mpr hall
      constructor
      · rw [hgo]
        exact hnone
      · intro k c h
        rw [hproc, hnone] at h
        exact processLoop_ne_count cfg env groups fs₀ k c h

/-- C3 (witness): a two-echo run makes `process` fail with
`EchoCountMismatch` naming the run, with no combination or projection work
performed. -/
theorem c3_echo_count_validation_witness :
    ∃ k c, (process wCfg wEnvTwoEchoes []).result = .error (.EchoCountMismatch k c) ∧
      (∃ g, (k, g) ∈ groupsOf wEnvTwoEchoes ∧ g.echo_files.length = c) ∧ c ≠ 3 ∧
      (process wCfg wEnvTwoEchoes []).combine_calls = [] ∧
      (process wCfg wEnvTwoEchoes []).stage_calls = [] ∧
      (process wCfg wEnvTwoEchoes []).fs = [] :=
  (c3_echo_count_validation wCfg wEnvTwoEchoes [] (by decide) (by decide) (by decide)).1
    (by decide)

/-! ### The projection stage trace -/

theorem apply_transforms_call (env : Env) (input output : EPath)
    (transforms : List EPath) (reference : EPath) (fs : FS) :
    (apply_transforms env input output transforms reference fs).call =
      ⟨input, output, transforms, reference⟩ := by
  simp only [apply_transforms]
  split
  · rfl
  · split
    · rfl
    · split
      · rfl
      · rfl

theorem pto_ok_trace (cfg : Config) (env : Env) (optcom : EPath) (tf : TransformFiles)
    (run_key : String) (fs : FS) (t1 t2 : EPath)
    (h : (process_tedana_outputs cfg env optcom tf run_key fs).result = .ok (t1, t2)) :
    (process_tedana_outputs cfg env optcom tf run_key fs).stage_calls =
      [⟨optcom, t1wOutputOf cfg run_key, [tf.bold_to_t1w], tf.t1w_reference⟩,
        ⟨optcom, mniOutputOf cfg run_key, [tf.t1w_to_mni, tf.bold_to_t1w],
          tf.mni_reference⟩] := by
  cases h1 : (apply_transforms env optcom (t1wOutputOf cfg run_key)
      [tf.bold_to_t1w] tf.t1w_reference fs).result with
  | error e =>
    simp only [process_tedana_outputs, h1] at h
    simp at h
  | ok t1w =>
    cases h2 : (apply_transforms env optcom (mniOutputOf cfg run_key)
        [tf.t1w_to_mni, tf.bold_to_t1w] tf.mni_reference
        (apply_transforms env optcom (t1wOutputOf cfg run_key)
          [tf.bold_to_t1w] tf.t1w_reference fs).fs).result with
    | error e =>
      simp only [process_tedana_outputs, h1, h2] at h
      simp at h
    | ok mni =>
      simp only [process_tedana_outputs, h1, h2]
      rw [apply_transforms_call, apply_transforms_call]

theorem appendEcho_keys (acc : List (String × RunGroup)) (k : String)
    (info : EchoFileInfo) (h : ∀ p ∈ acc, p.2.key = p.1) :
    ∀ p ∈ appendEcho acc k info, p.2.key = p.1 := by
  intro p hp
  unfold appendEcho at hp
  rcases List.mem_map.mp hp with ⟨q, hq, rfl⟩
  by_cases hqk : q.1 = k
  · rw [if_pos hqk]
    exact h q hq
  · rw [if_neg hqk]
    exact h q hq

theorem groupRaw_keys (env : Env) :
    ∀ (l : List EPath) (acc : List (String × RunGroup)) (tr : List EPath)
      (acc' : List (String × RunGroup)) (tr' : List EPath),
      (∀ p ∈ acc, p.2.key = p.1) →
      groupRaw env l acc tr = .ok (acc', tr') → ∀ p ∈ acc', p.2.key = p.1 := by
  intro l
  induction l with
  | nil =>
    intro acc tr acc' tr' hacc h
    injection h with h1
    cases h1
    exact hacc
  | cons f fs ih =>
    intro acc tr acc' tr' hacc h
    simp only [groupRaw] at h
    cases hi : get_echo_file_info env f with
    | error e =>
      rw [hi] at h
      simp at h
    | ok info =>
      rw [hi] at h
      cases hl : lookupRG acc (runKeyOf f) with
      | some g0 =>
        rw [hl] at h
        exact ih _ _ _ _ (appendEcho_keys acc (runKeyOf f) info hacc) h
      | none =>
        rw [hl] at h
        cases htf : find_transform_files env f with
        | error e =>
          rw [htf] at h
          simp at h
        | ok tfv =>
          rw [htf] at h
          refine ih _ _ _ _ (appendEcho_keys _ (runKeyOf f) info ?_) h
          intro p hp
          rcases List.mem_append.mp hp with hp | hp
          · exact hacc p hp
          · rcases List.mem_singleton.mp hp with rfl
            rfl

theorem group_keys (env : Env) (l : List EPath) (acc : List (String × RunGroup))
    (tr : List EPath) (h : group_echoes_by_run env l = .ok (acc, tr)) :
    ∀ p ∈ acc, p.2.key = p.1 := by
  unfold group_echoes_by_run at h
  cases hr : groupRaw env l [] [] with
  | error e =>
    rw [hr] at h
    simp at h
  | ok pr =>
    rcases pr with ⟨acc₀, tr₀⟩
    rw [hr] at h
    have hkeys := groupRaw_keys env l [] [] acc₀ tr₀ (by simp) hr
    injection h with h1
    have hacc : acc = acc₀.map
        (fun p => (p.1, { p.2 with echo_files := sortByTE p.2.echo_files })) :=
      (congrArg Prod.fst h1).symm
    subst hacc
    intro p hp
    rcases List.mem_map.mp hp with ⟨q, hq, rfl⟩
    exact hkeys q hq

theorem run_tedana_result_eta (cfg : Config) (env : Env) (rg : RunGroup) (fs : FS)
    (p : EPath) (h : (run_tedana cfg env rg fs).result = .ok p) :
    run_tedana cfg env rg fs =
      ⟨(run_tedana cfg env rg fs).fs, (run_tedana cfg env rg fs).combine_calls, .ok p⟩ := by
  rw [← h]

theorem processLoop_ok_stages (cfg : Config) (env : Env) :
    ∀ (groups : List (String × RunGroup)) (fs : FS)
      (res : List (String × (EPath × EPath × EPath))),
      (∀ p ∈ groups, p.2.key = p.1) →
      (processLoop cfg env groups fs).2.2.2 = .ok res →
      (processLoop cfg env groups fs).2.2.1 =
        groups.flatMap (fun p =>
          [anatCall cfg p.1 p.2.transforms, stdCall cfg p.1 p.2.transforms]) := by
  intro groups
  induction groups with
  | nil =>
    intro fs res _ _
    simp [processLoop]
  | cons p rest ih =>
    intro fs res hkeys hok
    rcases p with ⟨run_key, rg⟩
    have hkey : rg.key = run_key := hkeys (run_key, rg) (List.mem_cons_self _ rest)
    cases hrt : (run_tedana cfg env rg fs).result with
    | error e =>
      simp only [processLoop, hrt] at hok
      simp at hok
    | ok optcom =>
      have hopt : optcom = optcomPathOf cfg rg.key :=
        (run_tedana_ok_inv cfg env rg fs _ _ optcom
          (run_tedana_result_eta cfg env rg fs optcom hrt)).1
      cases hpt : (process_tedana_outputs cfg env optcom rg.transforms run_key
          (run_tedana cfg env rg fs).fs).result with
      | error e =>
        simp only [processLoop, hrt, hpt] at hok
        simp at hok
      | ok pr =>
        rcases pr with ⟨t1w, mni⟩
        cases hnext : (processLoop cfg env rest
            (process_tedana_outputs cfg env optcom rg.transforms run_key
              (run_tedana cfg env rg fs).fs).fs).2.2.2 with
        | error e =>
          simp only [processLoop, hrt, hpt, hnext] at hok
          simp at hok
        | ok res' =>
          have hrest := ih _ res'
            (fun q hq => hkeys q (List.mem_cons.mpr (Or.inr hq))) hnext
          simp only [processLoop, hrt, hpt]
          rw [pto_ok_trace cfg env optcom rg.transforms run_key _ t1w mni hpt, hrest]
          rw [hopt, hkey]
          simp [anatCall, stdCall]

/-- C1: whenever `process` succeeds, its Spatial Projection Stage trace is
exactly two invocations per run group, in run order: one with the single
transform `[bold_to_t1w]` against the T1w reference producing the T1w-space
output, and one with `[t1w_to_mni, bold_to_t1w]` in exactly that order
against the MNI reference producing the MNI-space output, both applied to
the run's combined output. -/
theorem c1_projection_calls (cfg : Config) (env : Env) (fs₀ : FS)
    (hok : (process cfg env fs₀).result.isOk = true) :
    (process cfg env fs₀).stage_calls =
      (groupsOf env).flatMap (fun p =>
        [anatCall cfg p.1 p.2.transforms, stdCall cfg p.1 p.2.transforms]) := by
  cases hfm : env.fmriprep_exists with
  | false =>
    simp [process, hfm, Except.isOk, Except.toBool] at hok
  | true =>
    cases hsub : env.subject_dir_exists with
    | false =>
      simp [process, find_echo_files, hfm, hsub, Except.isOk, Except.toBool] at hok
    | true =>
      cases hg : group_echoes_by_run env env.echo_glob with
      | error e =>
        simp [process, find_echo_files, hfm, hsub, hg, Except.isOk, Except.toBool] at hok
      | ok pr =>
        rcases pr with ⟨groups, rtr⟩
        have hgo : groupsOf env = groups := by
          simp [groupsOf, hg]
        cases hchk : checkEchoCounts groups with
        | some kc =>
          rcases kc with ⟨k, c⟩
          simp [process, find_echo_files, hfm, hsub, hg, hchk,
            Except.isOk, Except.toBool] at hok
        | none =>
          have hred : process cfg env fs₀ =
              ⟨(processLoop cfg env groups fs₀).1, rtr,
                (processLoop cfg env groups fs₀).2.1,
                (processLoop cfg env groups fs₀).2.2.1,
                (processLoop cfg env groups fs₀).2.2.2⟩ := by
            simp only [process, find_echo_files, hfm, hsub]
            simp
            rw [hg]
            simp
            rw [hchk]
          rw [hred] at hok ⊢
          cases hres : (processLoop cfg env groups fs₀).2.2.2 with
          | error e =>
            rw [hres] at hok
            simp [Except.isOk, Except.toBool] at hok
          | ok res =>
            rw [hgo]
            exact processLoop_ok_stages cfg env groups fs₀ res
              (group_keys env env.echo_glob groups rtr hg) hres

/-- C1 (witness): the concrete healthy run's projection-stage trace. -/
theorem c1_projection_calls_witness :
    (process wCfg wEnv []).stage_calls =
      (groupsOf wEnv).flatMap (fun p =>
        [anatCall wCfg p.1 p.2.transforms, stdCall wCfg p.1 p.2.transforms]) :=
  c1_projection_calls wCfg wEnv [] (by decide)
